import Mathlib

/-!
# whiteCache: a shallow embedding of the cache engine

The Go packages `lru`, `consistenhash`, `singleflight` and `cache` are embedded
as pure functions over explicit state.  Conventions used throughout:

* A Go call that can panic or block forever returns an `Outcome`.
* `len(s)` of a Go string is its byte length, `String.utf8ByteSize`.
* An `int64` computation is the exact integer computation followed by `i64`,
  the two's complement wrap-around; `len(s)` itself is taken exactly.
* `sync.Mutex` sections are executed atomically (one call at a time); the
  read/write lock of the group registry is kept as explicit state.
-/

set_option linter.dupNamespace false

/-- Result of running a Go call: normal return, a run-time panic, or a call
that never returns (blocked on a lock or a wait group, or looping forever). -/
inductive Outcome (α : Type) where
  | ret (a : α) : Outcome α
  | panic (msg : String) : Outcome α
  | hang : Outcome α
deriving Repr, DecidableEq

/-- The value a call returned, or `d` when it did not return. -/
def Outcome.getD {α : Type} (o : Outcome α) (d : α) : α :=
  match o with
  | .ret a => a
  | .panic _ => d
  | .hang => d

/-- The value of an `int64` expression whose exact value is `x`: `int64`
arithmetic wraps around, and `i64` is the identity from `-2 ^ 63` to
`2 ^ 63 - 1`. -/
def i64 (x : Int) : Int :=
  (x + 9223372036854775808) % 18446744073709551616 - 9223372036854775808

/-- The largest `int64`, `math.MaxInt64`. -/
def maxInt64 : Int := 9223372036854775807

/-- Go `error` values, identified by their message; `none` is the nil error. -/
abbrev Error := String

/-- The run-time panic raised by a method call or field access through nil. -/
def nilDeref : String := "invalid memory address or nil pointer dereference"

/-- The run-time panic raised by writing to a nil map. -/
def nilMapWrite : String := "assignment to entry in nil map"

/-- A Go `map[κ]ν` (non-nil) as an association list with one pair per key. -/
abbrev GoMap (κ ν : Type) := List (κ × ν)

/-- The read `v, ok := m[k]`. -/
def GoMap.get {κ ν : Type} [DecidableEq κ] (m : GoMap κ ν) (k : κ) : Option ν :=
  (m.find? (fun p => decide (p.1 = k))).map Prod.snd

/-- The statement `delete(m, k)`. -/
def GoMap.delete {κ ν : Type} [DecidableEq κ] (m : GoMap κ ν) (k : κ) : GoMap κ ν :=
  m.filter (fun p => !decide (p.1 = k))

/-- The assignment `m[k] = v`: any earlier value of `k` is replaced. -/
def GoMap.set {κ ν : Type} [DecidableEq κ] (m : GoMap κ ν) (k : κ) (v : ν) : GoMap κ ν :=
  (k, v) :: GoMap.delete m k

/-! ## Package `lru` -/

namespace lru

/-- The interface `Value`: anything with a method `Len() int`.  The `int` that
the method returns, as converted by `int64(value.Len())`, is `i64 (Len v)`. -/
class Value (V : Type) where
  Len : V → Int

/-- An implementation of `Value` whose `Len()` returns the number it holds. -/
structure Sized where
  len : Int
deriving Repr, DecidableEq

/-- The method `Len` of `Sized`. -/
instance : Value Sized := ⟨Sized.len⟩

/-- The struct `entry`, the payload of one element of the linked list. -/
structure entry (V : Type) where
  key : String
  value : V
deriving Repr, DecidableEq

/-- The struct `Cache`.  The doubly linked list `ll` is kept front first.  The
index `cache map[string]*list.Element` points from each key to its own list
element, so `c.cache[key]` is rendered as the search for `key` in `ll`.
`OnEvicted` records whether a callback is installed and `evictions` lists the
calls made to it, oldest first.  The fields `maxBytes` and `nbytes` are `int64`
values: every assignment to `nbytes` goes through `i64`. -/
structure Cache (V : Type) where
  maxBytes : Int
  nbytes : Int
  ll : List (entry V)
  OnEvicted : Bool
  evictions : List (String × V)
deriving Repr, DecidableEq

/-- The exact sum `len(key) + value.Len()` for an entry. -/
def entry.size {V : Type} [Value V] (e : entry V) : Int :=
  (e.key.utf8ByteSize : Int) + Value.Len e.value

/-- The exact sum of `len(key) + value.Len()` over the entries of a list. -/
def storedBytes {V : Type} [Value V] : List (entry V) → Int
  | [] => 0
  | e :: l => e.size + storedBytes l

/-- The lookup `ele, ok := c.cache[key]`. -/
def Cache.lookup {V : Type} (c : Cache V) (key : String) : Option (entry V) :=
  c.ll.find? (fun e => decide (e.key = key))

/-- The list after `c.ll.MoveToFront(ele)` once the payload of `ele` is `e`. -/
def moveToFront {V : Type} (ll : List (entry V)) (e : entry V) : List (entry V) :=
  e :: ll.eraseP (fun x => decide (x.key = e.key))

/-- The constructor `New(maxBytes, onEvicted)`.  The budget is an `int64`; it is
only ever compared, so it is stored as given. -/
def New {V : Type} (maxBytes : Int) (onEvicted : Bool) : Cache V :=
  { maxBytes := maxBytes, nbytes := 0, ll := [], OnEvicted := onEvicted, evictions := [] }

/-- The method `Get`: `some v` stands for `(v, true)`, `none` for `(nil, false)`. -/
def Cache.Get {V : Type} (c : Cache V) (key : String) : Cache V × Option V :=
  match c.lookup key with
  | some ele => ({ c with ll := moveToFront c.ll ele }, some ele.value)
  | none => (c, none)

/-- The method `RemoveOldest`.  On an empty list `c.ll.Back()` is nil and
`c.ll.Remove(nil)` dereferences it.  The counter is updated by
`c.nbytes -= int64(len(kv.key)) + int64(kv.value.Len())`. -/
def Cache.RemoveOldest {V : Type} [Value V] (c : Cache V) : Outcome (Cache V) :=
  match c.ll.getLast? with
  | none => .panic nilDeref
  | some kv =>
    .ret { c with
      ll := c.ll.dropLast
      nbytes := i64 (c.nbytes - i64 ((kv.key.utf8ByteSize : Int) + i64 (Value.Len kv.value)))
      evictions := if c.OnEvicted then c.evictions ++ [(kv.key, kv.value)] else c.evictions }

/-- The first half of `Add`: update the entry of `key` in place and move it to
the front, with `c.nbytes += int64(value.Len()) - int64(kv.value.Len())`, or
push a new entry at the front, with
`c.nbytes += int64(value.Len()) + int64(len(key))`. -/
def Cache.insert {V : Type} [Value V] (c : Cache V) (key : String) (value : V) : Cache V :=
  match c.lookup key with
  | some ele =>
    { c with
      ll := moveToFront c.ll { ele with value := value }
      nbytes := i64 (c.nbytes + i64 (i64 (Value.Len value) - i64 (Value.Len ele.value))) }
  | none =>
    { c with
      ll := { key := key, value := value } :: c.ll
      nbytes := i64 (c.nbytes + i64 (i64 (Value.Len value) + (key.utf8ByteSize : Int))) }

/-- The loop `for c.maxBytes != 0 && c.maxBytes < c.nbytes { c.RemoveOldest() }`
run for at most `fuel` iterations. -/
def Cache.evict {V : Type} [Value V] : Nat → Cache V → Outcome (Cache V)
  | 0, c => if c.maxBytes ≠ 0 ∧ c.maxBytes < c.nbytes then .hang else .ret c
  | fuel + 1, c =>
    if c.maxBytes ≠ 0 ∧ c.maxBytes < c.nbytes then
      match c.RemoveOldest with
      | .ret c1 => Cache.evict fuel c1
      | .panic msg => .panic msg
      | .hang => .hang
    else .ret c

/-- The method `Add`.  Every iteration of the eviction loop removes one list
element or panics, so one more iteration than the list has elements is enough. -/
def Cache.Add {V : Type} [Value V] (c : Cache V) (key : String) (value : V) :
    Outcome (Cache V) :=
  Cache.evict ((c.insert key value).ll.length + 1) (c.insert key value)

/-- The method `Len`. -/
def Cache.Len {V : Type} (c : Cache V) : Nat := c.ll.length

/-- The stores on which the eviction loop calls `RemoveOldest`, in the order
of the calls, for a loop run for at most `fuel` iterations. -/
def Cache.evictCalls {V : Type} [Value V] : Nat → Cache V → List (Cache V)
  | 0, _ => []
  | fuel + 1, c =>
    if c.maxBytes ≠ 0 ∧ c.maxBytes < c.nbytes then
      c :: (match c.RemoveOldest with
            | .ret c1 => Cache.evictCalls fuel c1
            | .panic _ => []
            | .hang => [])
    else []

/-- The stores on which `Add(key, value)` calls `RemoveOldest`. -/
def Cache.removeCalls {V : Type} [Value V] (c : Cache V) (key : String) (value : V) :
    List (Cache V) :=
  Cache.evictCalls ((c.insert key value).ll.length + 1) (c.insert key value)

/-- A call made on a store by its owner. -/
inductive Op (V : Type) where
  | add (key : String) (value : V) : Op V
  | get (key : String) : Op V
deriving Repr, DecidableEq

/-- Effect of one call on the store. -/
def Cache.step {V : Type} [Value V] (c : Cache V) : Op V → Outcome (Cache V)
  | .add key value => c.Add key value
  | .get key => .ret (c.Get key).1

/-- Effect of a sequence of calls, stopping at the first that does not return. -/
def Cache.run {V : Type} [Value V] (c : Cache V) : List (Op V) → Outcome (Cache V)
  | [] => .ret c
  | op :: ops =>
    match c.step op with
    | .ret c1 => Cache.run c1 ops
    | .panic msg => .panic msg
    | .hang => .hang

/-- Whether an entry for `key` is stored. -/
def Cache.stores {V : Type} (c : Cache V) (key : String) : Prop :=
  ∃ e ∈ c.ll, e.key = key

/-- A call whose sizes cannot overflow the `int64` counter of a store with
budget `M`: a `Get`, or an `Add` of a value of non-negative length whose entry,
added to a full store, stays within `int64`. -/
def Op.bounded {V : Type} [Value V] (M : Int) : Op V → Prop
  | .add key value =>
    0 ≤ Value.Len value ∧ M + ((key.utf8ByteSize : Int) + Value.Len value) ≤ maxInt64
  | .get _ => True

/-- All stored values have a length from `0` to `math.MaxInt64`. -/
def Plain {V : Type} [Value V] (l : List (entry V)) : Prop :=
  ∀ e ∈ l, 0 ≤ Value.Len e.value ∧ Value.Len e.value ≤ maxInt64

/-- A store of values of non-negative length whose counter is the exact stored
sum and within its budget `M`. -/
def Within {V : Type} [Value V] (M : Int) (c : Cache V) : Prop :=
  c.maxBytes = M ∧ c.nbytes = storedBytes c.ll ∧ c.nbytes ≤ M ∧ Plain c.ll

/-- The list is ordered by strictly decreasing time of last use, front first,
and no stored key was used after the current clock value. -/
def Recent {V : Type} (lastUse : String → Nat) (clock : Nat) (l : List (entry V)) : Prop :=
  l.Pairwise (fun a b => lastUse b.key < lastUse a.key) ∧ ∀ e ∈ l, lastUse e.key ≤ clock

/-- The last-use times after key `k` is used at time `t + 1`. -/
def useAt (lastUse : String → Nat) (t : Nat) (k : String) : String → Nat :=
  fun x => if k = x then t + 1 else lastUse x

/-- A store together with a clock counting the calls made so far and the time
of the last use of every key: set by every `Add` of the key and by every `Get`
that finds it, and `0` for a key never used. -/
structure Timed (V : Type) where
  cache : Cache V
  clock : Nat
  lastUse : String → Nat

/-- The key a call uses: `Add` always uses its key, `Get` only when it hits. -/
def Cache.uses {V : Type} (c : Cache V) : Op V → Option String
  | .add key _ => some key
  | .get key => if (c.lookup key).isSome then some key else none

/-- One call on a timed store. -/
def Timed.step {V : Type} [Value V] (s : Timed V) (op : Op V) : Outcome (Timed V) :=
  match s.cache.step op with
  | .ret c1 =>
    .ret { cache := c1
           clock := s.clock + 1
           lastUse := fun k =>
             if s.cache.uses op = some k then s.clock + 1 else s.lastUse k }
  | .panic msg => .panic msg
  | .hang => .hang

/-- A sequence of calls on a timed store. -/
def Timed.run {V : Type} [Value V] (s : Timed V) : List (Op V) → Outcome (Timed V)
  | [] => .ret s
  | op :: ops =>
    match s.step op with
    | .ret s1 => Timed.run s1 ops
    | .panic msg => .panic msg
    | .hang => .hang

/-- The timed store made by `New`: nothing stored, nothing used yet. -/
def Timed.New {V : Type} (maxBytes : Int) (onEvicted : Bool) : Timed V :=
  { cache := lru.New maxBytes onEvicted, clock := 0, lastUse := fun _ => 0 }

end lru

/-- Whether a call is bounded can be computed from its sizes. -/
instance lru.Op.decidableBounded {V : Type} [lru.Value V] (M : Int) (op : lru.Op V) :
    Decidable (op.bounded M) := by
  cases op <;> unfold lru.Op.bounded <;> infer_instance

/-- Whether `key` is stored can be computed by scanning the list. -/
instance lru.Cache.decidableStores {V : Type} (c : lru.Cache V) (key : String) :
    Decidable (c.stores key) := by
  unfold lru.Cache.stores
  infer_instance

/-! ## Package `consistenhash` -/

namespace consistenhash

/-- The type `Hash func(data []byte) uint32`.  The argument is the string whose
bytes are hashed; results are reduced modulo `2 ^ 32` where they are used. -/
abbrev Hash := String → Nat

/-- The bytes of a string (its UTF-8 encoding). -/
def strBytes (s : String) : List Nat :=
  (s.data.flatMap String.utf8EncodeChar).map UInt8.toNat

/-- One bit step of the reflected CRC-32 with the IEEE polynomial. -/
def crcBit (crc : Nat) : Nat :=
  if crc % 2 = 1 then (crc / 2) ^^^ 0xEDB88320 else crc / 2

/-- CRC-32 update with one byte. -/
def crcByte (crc b : Nat) : Nat :=
  crcBit (crcBit (crcBit (crcBit (crcBit (crcBit (crcBit (crcBit (crc ^^^ b))))))))

/-- The standard library checksum `crc32.ChecksumIEEE`, the default hash. -/
def ChecksumIEEE : Hash := fun s =>
  ((strBytes s).foldl crcByte 0xFFFFFFFF) ^^^ 0xFFFFFFFF

/-- The struct `Map`: hash function, the ring `keys`, the replica count and the
table from virtual-node hash to real node. -/
structure Map where
  hash : Hash
  keys : List Int
  replicas : Int
  hashMap : GoMap Int String

/-- The constructor `New(replicas, fn)`; `none` is a nil `fn`. -/
def New (replicas : Int) (fn : Option Hash) : Map :=
  { hash := match fn with
            | some f => f
            | none => ChecksumIEEE
    keys := []
    replicas := replicas
    hashMap := [] }

/-- The conversion `int(m.hash([]byte(data)))` of a `uint32` hash value to a
64-bit `int`: a number from `0` to `2 ^ 32 - 1`. -/
def Map.hashInt (m : Map) (data : String) : Int :=
  ((m.hash data % 4294967296 : Nat) : Int)

/-- The body of the inner loop of `Add` for replica number `i` of node `key`:
hash the virtual node `strconv.Itoa(i) + key`, append the hash to `keys` and
record the node under it. -/
def Map.addReplica (key : String) (m : Map) (i : Nat) : Map :=
  { m with
    keys := m.keys ++ [m.hashInt (toString i ++ key)]
    hashMap := GoMap.set m.hashMap (m.hashInt (toString i ++ key)) key }

/-- The inner loop `for i := 0; i < m.replicas; i++` of `Add` for one node. -/
def Map.addKey (m : Map) (key : String) : Map :=
  (List.range m.replicas.toNat).foldl (Map.addReplica key) m

/-- The method `Add(keys...)`: all virtual nodes of all given nodes, then
`sort.Ints(m.keys)`. -/
def Map.Add (m : Map) (keys : List String) : Map :=
  { keys.foldl Map.addKey m with
    keys := (keys.foldl Map.addKey m).keys.insertionSort (· ≤ ·) }

/-- The loop of the standard library `sort.Search`: binary search on `[i, j)`.
Every iteration shrinks the interval, so `fuel ≥ j - i` iterations suffice. -/
def searchLoop (f : Nat → Bool) : Nat → Nat → Nat → Nat
  | 0, i, _ => i
  | fuel + 1, i, j =>
    if i < j then
      if !f ((i + j) / 2) then searchLoop f fuel ((i + j) / 2 + 1) j
      else searchLoop f fuel i ((i + j) / 2)
    else i

/-- The standard library `sort.Search(n, f)`. -/
def Search (n : Nat) (f : Nat → Bool) : Nat := searchLoop f n 0 n

/-- The method `Get`.  The index expressions `m.keys[i]` are only evaluated
within bounds; a missing table entry reads as the empty string. -/
def Map.Get (m : Map) (key : String) : String :=
  if m.keys.length = 0 then ""
  else
    ((GoMap.get m.hashMap
      (m.keys.getD
        (Search m.keys.length (fun i => decide (m.keys.getD i 0 ≥ m.hashInt key))
          % m.keys.length) 0)).getD "")

/-- The ring obtained from `New(replicas, fn)` by one `Add` call per batch. -/
def ring (replicas : Int) (fn : Option Hash) (batches : List (List String)) : Map :=
  batches.foldl Map.Add (New replicas fn)

/-- The hash of replica `i` of node `key` in a ring made by `New(replicas, fn)`. -/
def virtualHash (fn : Option Hash) (i : Nat) (key : String) : Int :=
  (New 0 fn).hashInt (toString i ++ key)

/-- The table after the assignments `hm[p.1] = p.2` for the pairs of `ps`, in
order. -/
def setAll (hm : GoMap Int String) (ps : List (Int × String)) : GoMap Int String :=
  ps.foldl (fun h p => GoMap.set h p.1 p.2) hm

/-- The virtual nodes `(hash, node)` of `nodes` in the order in which `Add`
creates them. -/
def Map.virtualNodes (m : Map) (nodes : List String) : List (Int × String) :=
  nodes.flatMap fun n =>
    (List.range m.replicas.toNat).map fun i => (m.hashInt (toString i ++ n), n)

/-- A hash for examples: the number that the decimal digits of a string spell. -/
def decimalHash : Hash := fun s => s.data.foldl (fun n c => 10 * n + (c.toNat - 48)) 0

end consistenhash

/-! ## Package `singleflight` -/

namespace singleflight

/-- The struct `call`: the wait-group counter, the result (`none` is a nil
interface value) and the error. -/
structure call (β : Type) where
  wg : Nat
  val : Option β
  err : Option Error

/-- The struct `Group`; `m = none` is the nil map of the zero value. -/
structure Group (β : Type) where
  m : Option (GoMap String (call β))

/-- The method `Do(key, fn)`.  The producer `fn` acts on the caller's state
`σ`.  A record found with a positive wait-group counter belongs to a call that
will never finish when no other call is running, so waiting on it blocks. -/
def Group.Do {β σ : Type} (g : Group β) (key : String)
    (fn : σ → Outcome (σ × Option β × Option Error)) (s : σ) :
    Outcome (σ × Group β × Option β × Option Error) :=
  match (g.m.bind fun m => GoMap.get m key) with
  | some c => if c.wg = 0 then .ret (s, g, c.val, c.err) else .hang
  | none =>
    match g.m with
    | none => .panic nilMapWrite
    | some m =>
      match fn s with
      | .ret (s1, val, err) =>
        .ret (s1,
          { m := some (GoMap.delete
              (GoMap.set m key { wg := 0, val := val, err := err }) key) },
          val, err)
      | .panic msg => .panic msg
      | .hang => .hang

/-- A producer that counts its invocations in the caller's state and
returns `v`. -/
def countingProducer {β : Type} (v : β) : Nat → Outcome (Nat × Option β × Option Error) :=
  fun n => .ret (n + 1, some v, none)

end singleflight

/-! ## Package `cache` -/

namespace cache

/-- A byte slice `[]byte`. -/
abbrev Bytes := List UInt8

/-- The struct `ByteView`; the zero value holds no bytes. -/
structure ByteView where
  b : Bytes
deriving Repr, DecidableEq

/-- The method `Len`. -/
def ByteView.Len (v : ByteView) : Int := (v.b.length : Int)

/-- Byte views are the values kept in the eviction store. -/
instance : lru.Value ByteView := ⟨ByteView.Len⟩

/-- The function `cloneBytes`: a fresh slice with the same contents. -/
def cloneBytes (b : Bytes) : Bytes := b

/-- The method `ByteSlice`. -/
def ByteView.ByteSlice (v : ByteView) : Bytes := cloneBytes v.b

/-- The struct `cache`: the lazily created store (`none` is nil) and its budget. -/
structure cache where
  lru : Option (lru.Cache ByteView)
  cacheBytes : Int
deriving Repr, DecidableEq

/-- The method `add`, which creates the store on first use. -/
def cache.add (c : cache) (key : String) (value : ByteView) : Outcome cache :=
  match (match c.lru with
         | none => lru.Cache.Add (lru.New c.cacheBytes false) key value
         | some l => lru.Cache.Add l key value) with
  | .ret l1 => .ret { c with lru := some l1 }
  | .panic msg => .panic msg
  | .hang => .hang

/-- The method `get`, returning the store after the call and `(value, ok)`. -/
def cache.get (c : cache) (key : String) : cache × ByteView × Bool :=
  match c.lru with
  | none => (c, ⟨[]⟩, false)
  | some l =>
    match l.Get key with
    | (l1, some v) => ({ c with lru := some l1 }, v, true)
    | (l1, none) => ({ c with lru := some l1 }, ⟨[]⟩, false)

/-- The interface `Getter` (and `GetterFunc`): the user's loader. -/
abbrev Getter := String → Bytes × Option Error

/-- The interface `PeerGetter`: `Get(group, key)` on a remote node. -/
abbrev PeerGetter := String → String → Bytes × Option Error

/-- The interface `PeerPicker`: `PickPeer(key)`; the handle may be nil. -/
abbrev PeerPicker := String → Option PeerGetter × Bool

/-- A call made by a group to one of its capabilities. -/
inductive Event where
  | load (key : String) : Event
  | pickPeer (key : String) : Event
  | fetch (group key : String) : Event
deriving Repr, DecidableEq

/-- The struct `Group`.  Nil interfaces and pointers are `none`.  The field
`calls` lists the calls made to the loader and the peer capabilities so far. -/
structure Group where
  name : String
  getter : Option Getter
  mainCache : cache
  peers : Option PeerPicker
  loader : Option (singleflight.Group ByteView)
  calls : List Event

/-- The state of a `sync.RWMutex`: number of read holds and the write hold. -/
structure RWMutex where
  readers : Nat
  writer : Bool
deriving Repr, DecidableEq

/-- The method `Lock`: waits until nobody holds the lock. -/
def RWMutex.Lock (mu : RWMutex) : Outcome RWMutex :=
  if mu.writer = false ∧ mu.readers = 0 then .ret { mu with writer := true } else .hang

/-- The method `Unlock`. -/
def RWMutex.Unlock (mu : RWMutex) : Outcome RWMutex :=
  if mu.writer then .ret { mu with writer := false }
  else .panic "sync: Unlock of unlocked RWMutex"

/-- The package variables `mu` and `groups`. -/
structure Registry where
  mu : RWMutex
  groups : GoMap String Group

/-- The registry of a fresh process. -/
def Registry.init : Registry := { mu := { readers := 0, writer := false }, groups := [] }

/-- The function `NewGroup`; the deferred `mu.Unlock()` runs last. -/
def NewGroup (reg : Registry) (name : String) (cacheBytes : Int) (getter : Option Getter) :
    Outcome (Registry × Group) :=
  match getter with
  | none => .panic "nil Getter"
  | some f =>
    match reg.mu.Lock with
    | .ret mu1 =>
      match mu1.Unlock with
      | .ret mu2 =>
        .ret ({ mu := mu2
                groups := GoMap.set reg.groups name
                  { name := name, getter := some f
                    mainCache := { lru := none, cacheBytes := cacheBytes }
                    peers := none, loader := some { m := none }, calls := [] } },
              { name := name, getter := some f
                mainCache := { lru := none, cacheBytes := cacheBytes }
                peers := none, loader := some { m := none }, calls := [] })
      | .panic msg => .panic msg
      | .hang => .hang
    | .panic msg => .panic msg
    | .hang => .hang

/-- The method `RegiserPeers`. -/
def Group.RegiserPeers (g : Group) (peers : PeerPicker) : Outcome Group :=
  match g.peers with
  | some _ => .panic "无法重复注册"
  | none => .ret { g with peers := some peers }

/-- The method `populateCache`. -/
def Group.populateCache (g : Group) (key : String) (value : ByteView) : Outcome Group :=
  match g.mainCache.add key value with
  | .ret mc => .ret { g with mainCache := mc }
  | .panic msg => .panic msg
  | .hang => .hang

/-- The method `getLocally`. -/
def Group.getLocally (g : Group) (key : String) : Outcome (Group × ByteView × Option Error) :=
  match g.getter with
  | none => .panic nilDeref
  | some getter =>
    match getter key with
    | (_, some err) => .ret ({ g with calls := g.calls ++ [.load key] }, ⟨[]⟩, some err)
    | (bytes, none) =>
      match Group.populateCache { g with calls := g.calls ++ [.load key] } key
          ⟨cloneBytes bytes⟩ with
      | .ret g1 => .ret (g1, ⟨cloneBytes bytes⟩, none)
      | .panic msg => .panic msg
      | .hang => .hang

/-- The method `getFromPeer`; calling `Get` on a nil handle panics. -/
def Group.getFromPeer (g : Group) (peer : Option PeerGetter) (key : String) :
    Outcome (Group × ByteView × Option Error) :=
  match peer with
  | none => .panic nilDeref
  | some p =>
    match p g.name key with
    | (_, some err) => .ret ({ g with calls := g.calls ++ [.fetch g.name key] }, ⟨[]⟩, some err)
    | (bytes, none) => .ret ({ g with calls := g.calls ++ [.fetch g.name key] }, ⟨bytes⟩, none)

/-- The closure that `load` hands to `Do`.  Its state is the group together
with the named result `value` of `load`, which the closure assigns. -/
def Group.loadFn (key : String) (s : Group × ByteView) :
    Outcome ((Group × ByteView) × Option ByteView × Option Error) :=
  match s.1.peers with
  | none =>
    match s.1.getLocally key with
    | .ret (g1, v, err) => .ret ((g1, s.2), some v, err)
    | .panic msg => .panic msg
    | .hang => .hang
  | some pick =>
    match pick key with
    | (peer, true) =>
      match Group.getFromPeer { s.1 with calls := s.1.calls ++ [.pickPeer key] } peer key with
      | .ret (g1, value, none) => .ret ((g1, value), some value, none)
      | .ret (g1, value, some _) =>
        match g1.getLocally key with
        | .ret (g2, v, err) => .ret ((g2, value), some v, err)
        | .panic msg => .panic msg
        | .hang => .hang
      | .panic msg => .panic msg
      | .hang => .hang
    | (_, false) =>
      match Group.getLocally { s.1 with calls := s.1.calls ++ [.pickPeer key] } key with
      | .ret (g1, v, err) => .ret ((g1, s.2), some v, err)
      | .panic msg => .panic msg
      | .hang => .hang

/-- The method `load`.  A nil result with a nil error fails the type assertion
`viewi.(ByteView)`; with a non-nil error the named results are returned. -/
def Group.load (g : Group) (key : String) : Outcome (Group × ByteView × Option Error) :=
  match g.loader with
  | none => .panic nilDeref
  | some l =>
    match l.Do key (Group.loadFn key) (g, ⟨[]⟩) with
    | .ret ((g1, _), l1, some v, none) => .ret ({ g1 with loader := some l1 }, v, none)
    | .ret ((_, _), _, none, none) =>
      .panic "interface conversion: interface is nil, not cache.ByteView"
    | .ret ((g1, value), l1, _, some err) => .ret ({ g1 with loader := some l1 }, value, some err)
    | .panic msg => .panic msg
    | .hang => .hang

/-- The method `Get`. -/
def Group.Get (g : Group) (key : String) : Outcome (Group × ByteView × Option Error) :=
  if key = "" then .ret (g, ⟨[]⟩, some "key is required")
  else
    match g.mainCache.get key with
    | (mc, v, true) => .ret ({ g with mainCache := mc }, v, none)
    | (mc, _, false) => Group.load { g with mainCache := mc } key

/-- The method `RLock`: waits while a writer holds the lock. -/
def RWMutex.RLock (mu : RWMutex) : Outcome RWMutex :=
  if mu.writer then .hang else .ret { mu with readers := mu.readers + 1 }

/-- The function `GetGroup`: `mu.RLock()`, the lookup, and `mu.RLock()` again.
The result is the registry after the call and the group found (`none` is nil). -/
def GetGroup (reg : Registry) (name : String) : Outcome (Registry × Option Group) :=
  match reg.mu.RLock with
  | .ret mu1 =>
    match mu1.RLock with
    | .ret mu2 => .ret ({ reg with mu := mu2 }, GoMap.get reg.groups name)
    | .panic msg => .panic msg
    | .hang => .hang
  | .panic msg => .panic msg
  | .hang => .hang

/-! ### The HTTP pool -/

/-- The constant `defaultBasePath`. -/
def defaultBasePath : String := "/_whitecache"

/-- The constant `defaultReplicas`. -/
def defaultReplicas : Int := 50

/-- The struct `httpGetter`. -/
structure httpGetter where
  baseURL : String
deriving Repr, DecidableEq

/-- The struct `HTTPPool`; the ring pointer `peers` and the map `httpGetters`
are nil (`none`) until `Set` is called. -/
structure HTTPPool where
  self : String
  basePath : String
  peers : Option consistenhash.Map
  httpGetters : Option (GoMap String httpGetter)

/-- The constructor `NewHTTPPool(self)`. -/
def NewHTTPPool (self : String) : HTTPPool :=
  { self := self, basePath := defaultBasePath, peers := none, httpGetters := none }

/-- The method `Set(peers...)`. -/
def HTTPPool.Set (p : HTTPPool) (peers : List String) : HTTPPool :=
  { p with
    peers := some ((consistenhash.New defaultReplicas none).Add peers)
    httpGetters := some (peers.foldl
      (fun hm peer => GoMap.set hm peer { baseURL := peer ++ p.basePath }) []) }

/-- The method `PickPeer(key)`: the handle (`none` is a nil `*httpGetter`) and
the flag.  Calling `Get` on a nil ring pointer dereferences it. -/
def HTTPPool.PickPeer (p : HTTPPool) (key : String) : Outcome (Option httpGetter × Bool) :=
  match p.peers with
  | none => .panic nilDeref
  | some ring =>
    if ring.Get key ≠ "" ∧ ring.Get key ≠ p.self then
      .ret (p.httpGetters.bind (fun hm => GoMap.get hm (ring.Get key)), true)
    else .ret (none, false)

/-! ### Strings and URLs (standard library) -/

/-- The run-time panic raised by a slice expression past the end. -/
def sliceOutOfRange : String := "slice bounds out of range"

/-- The standard library `strings.HasPrefix(s, pre)`. -/
def HasPrefix (s pre : String) : Bool := pre.data.isPrefixOf s.data

/-- Drop `n` bytes from the front of a text, `none` when it has fewer bytes.
A cut that would fall inside a multi-byte character is made after it. -/
def dropBytes : Nat → List Char → Option (List Char)
  | 0, cs => some cs
  | _ + 1, [] => none
  | n + 1, c :: cs => dropBytes (n + 1 - c.utf8Size) cs

/-- The slice expression `s[n:]`, `none` when `n > len(s)`. -/
def sliceFrom (s : String) (n : Nat) : Option String :=
  (dropBytes n s.data).map String.mk

/-- The standard library `strings.SplitN(s, "/", 2)`. -/
def SplitN2 (s : String) : List String :=
  match s.data.span (fun c => c != '/') with
  | (a, []) => [String.mk a]
  | (a, _ :: b) => [String.mk a, String.mk b]

/-- Upper-case hexadecimal digit of a number below 16. -/
def hexDigit (n : Nat) : Char := "0123456789ABCDEF".data.getD n '0'

/-- Bytes that `url.QueryEscape` leaves as they are: letters, digits and
`-`, `_`, `.`, `~`. -/
def unreserved (b : Nat) : Bool :=
  (97 ≤ b && b ≤ 122) || (65 ≤ b && b ≤ 90) || (48 ≤ b && b ≤ 57)
    || b == 45 || b == 95 || b == 46 || b == 126

/-- The escape of one byte by `url.QueryEscape`: a space becomes `+`. -/
def escapeByte (b : Nat) : List Char :=
  if b = 32 then ['+']
  else if unreserved b then [Char.ofNat b]
  else ['%', hexDigit (b / 16), hexDigit (b % 16)]

/-- The standard library `url.QueryEscape(s)`. -/
def QueryEscape (s : String) : String :=
  String.mk ((consistenhash.strBytes s).flatMap escapeByte)

/-- Value of a hexadecimal digit given as a byte. -/
def unhex (b : Nat) : Option Nat :=
  if 48 ≤ b ∧ b ≤ 57 then some (b - 48)
  else if 97 ≤ b ∧ b ≤ 102 then some (b - 97 + 10)
  else if 65 ≤ b ∧ b ≤ 70 then some (b - 65 + 10)
  else none

/-- Percent-decoding of a URL path: `%XX` becomes a byte, every other byte,
`+` included, stays; `none` for a malformed escape. -/
def unescapeBytes : List Nat → Option (List Nat)
  | [] => some []
  | [b] => if b = 37 then none else some [b]
  | [b, c] => if b = 37 then none else (unescapeBytes [c]).map (fun r => b :: r)
  | b :: c :: d :: rest =>
    if b = 37 then
      match unhex c, unhex d with
      | some h, some l => (unescapeBytes rest).map (fun r => (h * 16 + l) :: r)
      | _, _ => none
    else (unescapeBytes (c :: d :: rest)).map (fun r => b :: r)

/-- Whether a byte is a UTF-8 continuation byte. -/
def continuation (b : Nat) : Bool := 128 ≤ b && b < 192

/-- The text that a sequence of bytes encodes in UTF-8, `none` when the bytes
are not the encoding of a text. -/
def decodeUTF8 : List Nat → Option (List Char)
  | [] => some []
  | [b0] => if b0 < 128 then some [Char.ofNat b0] else none
  | b0 :: b1 :: rest =>
    if b0 < 128 then (decodeUTF8 (b1 :: rest)).map (fun r => Char.ofNat b0 :: r)
    else if b0 < 192 || !continuation b1 then none
    else if b0 < 224 then
      (decodeUTF8 rest).map (fun r => Char.ofNat ((b0 - 192) * 64 + (b1 - 128)) :: r)
    else
      match rest with
      | [] => none
      | b2 :: rest2 =>
        if !continuation b2 then none
        else if b0 < 240 then
          (decodeUTF8 rest2).map (fun r =>
            Char.ofNat ((b0 - 224) * 4096 + (b1 - 128) * 64 + (b2 - 128)) :: r)
        else
          match rest2 with
          | [] => none
          | b3 :: rest3 =>
            if !continuation b3 || 248 ≤ b0 then none
            else
              (decodeUTF8 rest3).map (fun r =>
                Char.ofNat ((b0 - 240) * 262144 + (b1 - 128) * 4096 + (b2 - 128) * 64
                  + (b3 - 128)) :: r)

/-- The part of a URL after `scheme://`, `none` without a scheme. -/
def afterScheme : List Char → Option (List Char)
  | [] => none
  | c :: rest =>
    match c, rest with
    | ':', '/' :: '/' :: r => some r
    | _, _ => afterScheme rest

/-- The path `r.URL.Path` that the server sees for a request to URL `u`: the
text from the first `/` after the host up to a `?` or `#`, percent-decoded;
`none` when no request is made or the server rejects the request line. -/
def requestPath (u : String) : Option String :=
  (afterScheme u.data).bind fun r =>
    (unescapeBytes (consistenhash.strBytes (String.mk
      (((r.dropWhile (fun c => c != '/')).takeWhile (fun c => c != '?' && c != '#')))))).bind
      fun bs => (decodeUTF8 bs).map String.mk

/-- The URL `u` that `httpGetter.Get(group, key)` requests. -/
def httpGetter.requestURL (h : httpGetter) (group key : String) : String :=
  h.baseURL ++ QueryEscape group ++ "/" ++ QueryEscape key

/-- What a handler wrote: `http.Error(w, message, status)`, or the value bytes
with content type `application/octet-stream`. -/
inductive Response where
  | error (status : Nat) (message : String) : Response
  | octets (body : Bytes) : Response
deriving Repr, DecidableEq

/-- The first statements of `ServeHTTP`: the prefix check and
`strings.SplitN(r.URL.Path[len(p.basePath)+1:], "/", 2)`. -/
def HTTPPool.parts (p : HTTPPool) (path : String) : Outcome (List String) :=
  if HasPrefix path p.basePath then
    match sliceFrom path (p.basePath.utf8ByteSize + 1) with
    | none => .panic sliceOutOfRange
    | some rest => .ret (SplitN2 rest)
  else .panic ("前缀错误" ++ path)

/-- The method `ServeHTTP` for a request with decoded path `path`.  The group
found in the registry is the one `Get` acts on, so its new state is stored back. -/
def HTTPPool.ServeHTTP (p : HTTPPool) (reg : Registry) (path : String) :
    Outcome (Registry × Response) :=
  match p.parts path with
  | .ret [groupName, key] =>
    match GetGroup reg groupName with
    | .ret (reg1, none) => .ret (reg1, .error 404 ("不存在该命名空间:" ++ groupName))
    | .ret (reg1, some group) =>
      match group.Get key with
      | .ret (g1, view, none) =>
        .ret ({ reg1 with groups := GoMap.set reg1.groups groupName g1 },
          .octets view.ByteSlice)
      | .ret (g1, _, some err) =>
        .ret ({ reg1 with groups := GoMap.set reg1.groups groupName g1 }, .error 500 err)
      | .panic msg => .panic msg
      | .hang => .hang
    | .panic msg => .panic msg
    | .hang => .hang
  | .ret _ => .ret (reg, .error 400 "bad request")
  | .panic msg => .panic msg
  | .hang => .hang

/-- The loader of the read-through example: the bytes of `key + "-data"`. -/
def dataLoader : Getter := fun key =>
  ((key ++ "-data").data.flatMap String.utf8EncodeChar, none)

/-- A loader that fails with error `e` for every key. -/
def failingLoader (e : Error) : Getter := fun _ => ([], some e)

/-- A peer whose `Get` succeeds with bytes `b` for every group and key. -/
def constPeer (b : Bytes) : PeerGetter := fun _ _ => (b, none)

/-- A peer whose `Get` fails with error `e` for every group and key. -/
def failingPeer (e : Error) : PeerGetter := fun _ _ => ([], some e)

/-- A peer picker that names `peer` for every key. -/
def constPicker (peer : PeerGetter) : PeerPicker := fun _ => (some peer, true)

end cache

/-! ## Facts about the eviction store -/

namespace lru

theorem i64_zero : i64 0 = 0 := by decide

/-- An integer within `int64` is its own `int64` value. -/
theorem i64_of_range (x : Int) (h1 : -9223372036854775808 ≤ x) (h2 : x ≤ maxInt64) :
    i64 x = x := by
  unfold maxInt64 at h2
  unfold i64
  omega

/-- An entry whose exact size fits a budget also fits it with the length of the
value taken as `int64(v.Len())`, the length being an `int`. -/
theorem fits_as_int64 (n : Nat) (x M : Int) (h1 : -9223372036854775808 ≤ x)
    (h : (n : Int) + x ≤ M) : (n : Int) + i64 x ≤ M := by
  unfold i64
  omega

theorem storedBytes_append {V : Type} [Value V] (l1 l2 : List (entry V)) :
    storedBytes (l1 ++ l2) = storedBytes l1 + storedBytes l2 := by
  induction l1 with
  | nil => simp [storedBytes]
  | cons a l ih => simp [storedBytes, ih, Int.add_assoc]

theorem storedBytes_eraseP {V : Type} [Value V] (p : entry V → Bool) (l : List (entry V))
    (e : entry V) (h : l.find? p = some e) :
    storedBytes l = e.size + storedBytes (l.eraseP p) := by
  induction l with
  | nil => simp at h
  | cons a l ih =>
    by_cases hp : p a = true
    · simp [List.find?_cons, hp] at h
      subst h
      simp [List.eraseP_cons, hp, storedBytes]
    · simp [List.find?_cons, hp] at h
      simp [List.eraseP_cons, hp, storedBytes, ih h]
      omega

theorem storedBytes_dropLast {V : Type} [Value V] (l : List (entry V)) (kv : entry V)
    (h : l.getLast? = some kv) :
    storedBytes l = storedBytes l.dropLast + kv.size := by
  have h1 : l.dropLast ++ [kv] = l := List.dropLast_append_getLast? kv (by simp [h])
  conv_lhs => rw [← h1]
  simp [storedBytes_append, storedBytes]

theorem lookup_key {V : Type} (c : Cache V) (key : String) (ele : entry V)
    (h : c.lookup key = some ele) : ele.key = key := by
  have := List.find?_some h
  simpa using this

/-- The counter stays equal to the stored sum, as an `int64`, through `insert`. -/
theorem insert_sound {V : Type} [Value V] (c : Cache V) (key : String) (value : V)
    (h : c.nbytes = i64 (storedBytes c.ll)) :
    (c.insert key value).nbytes = i64 (storedBytes (c.insert key value).ll)
      ∧ (c.insert key value).maxBytes = c.maxBytes := by
  unfold Cache.insert
  cases hl : c.lookup key with
  | none =>
    simp only [storedBytes, entry.size, h, and_true]
    unfold i64
    omega
  | some ele =>
    have hk := lookup_key c key ele hl
    have hs := storedBytes_eraseP _ c.ll ele hl
    simp only [moveToFront, storedBytes, entry.size, hk, h, and_true] at hs ⊢
    rw [hs]
    unfold i64
    omega

/-- The counter stays equal to the stored sum, as an `int64`, through
`RemoveOldest`. -/
theorem RemoveOldest_sound {V : Type} [Value V] (c : Cache V) (kv : entry V)
    (h : c.nbytes = i64 (storedBytes c.ll)) (hl : c.ll.getLast? = some kv) :
    i64 (c.nbytes - i64 ((kv.key.utf8ByteSize : Int) + i64 (Value.Len kv.value)))
      = i64 (storedBytes c.ll.dropLast) := by
  have hs := storedBytes_dropLast c.ll kv hl
  simp only [entry.size] at hs
  rw [h, hs]
  unfold i64
  omega

theorem evict_stop {V : Type} [Value V] (fuel : Nat) (c : Cache V)
    (h : ¬ (c.maxBytes ≠ 0 ∧ c.maxBytes < c.nbytes)) : Cache.evict fuel c = .ret c := by
  cases fuel <;> simp only [Cache.evict, if_neg h]

theorem evict_succ {V : Type} [Value V] (fuel : Nat) (c : Cache V) :
    Cache.evict (fuel + 1) c =
      if c.maxBytes ≠ 0 ∧ c.maxBytes < c.nbytes then
        match c.RemoveOldest with
        | .ret c1 => Cache.evict fuel c1
        | .panic msg => .panic msg
        | .hang => .hang
      else .ret c := rfl

/-- A store over its non-negative budget holds an entry. -/
theorem over_budget_nonempty {V : Type} [Value V] (c : Cache V) (hM : 0 ≤ c.maxBytes)
    (hs : c.nbytes = i64 (storedBytes c.ll)) (hc : c.maxBytes ≠ 0 ∧ c.maxBytes < c.nbytes) :
    c.ll ≠ [] := by
  intro hnil
  rw [hnil] at hs
  simp only [storedBytes, i64_zero] at hs
  omega

/-- With a budget that is not negative the eviction loop returns and keeps the
counter equal to the stored sum, as an `int64`. -/
theorem evict_sound {V : Type} [Value V] (fuel : Nat) (c : Cache V)
    (h : c.nbytes = i64 (storedBytes c.ll)) (hM : 0 ≤ c.maxBytes) (hf : c.ll.length < fuel) :
    ∃ c1, Cache.evict fuel c = .ret c1 ∧ c1.nbytes = i64 (storedBytes c1.ll)
      ∧ c1.maxBytes = c.maxBytes := by
  induction fuel generalizing c with
  | zero => omega
  | succ n ih =>
    rw [evict_succ]
    by_cases hc : c.maxBytes ≠ 0 ∧ c.maxBytes < c.nbytes
    · rw [if_pos hc]
      have hne := over_budget_nonempty c hM h hc
      cases hl : c.ll.getLast? with
      | none => exact absurd (List.getLast?_eq_none_iff.mp hl) hne
      | some kv =>
        have hlen : c.ll.dropLast.length < n := by
          have : 0 < c.ll.length := List.length_pos.mpr hne
          rw [List.length_dropLast]
          omega
        simp only [Cache.RemoveOldest, hl]
        exact ih { c with
          ll := c.ll.dropLast
          nbytes := i64 (c.nbytes - i64 ((kv.key.utf8ByteSize : Int) + i64 (Value.Len kv.value)))
          evictions := if c.OnEvicted then c.evictions ++ [(kv.key, kv.value)]
            else c.evictions }
          (RemoveOldest_sound c kv h hl) hM hlen
    · rw [if_neg hc]
      exact ⟨c, rfl, h, rfl⟩

/-- With a budget that is not negative `Add` returns and keeps the counter
equal to the stored sum, as an `int64`. -/
theorem Add_sound {V : Type} [Value V] (c : Cache V) (key : String) (value : V)
    (hM : 0 ≤ c.maxBytes) (hs : c.nbytes = i64 (storedBytes c.ll)) :
    ∃ c1, c.Add key value = .ret c1 ∧ c1.nbytes = i64 (storedBytes c1.ll)
      ∧ c1.maxBytes = c.maxBytes := by
  obtain ⟨h1, h2⟩ := insert_sound c key value hs
  obtain ⟨c1, e1, s1, m1⟩ := evict_sound ((c.insert key value).ll.length + 1)
    (c.insert key value) h1 (by rw [h2]; exact hM) (Nat.lt_succ_self _)
  exact ⟨c1, e1, s1, m1.trans h2⟩

theorem Get_sound {V : Type} [Value V] (c : Cache V) (key : String)
    (hs : c.nbytes = i64 (storedBytes c.ll)) :
    (c.Get key).1.nbytes = i64 (storedBytes (c.Get key).1.ll)
      ∧ (c.Get key).1.maxBytes = c.maxBytes := by
  unfold Cache.Get
  cases hl : c.lookup key with
  | none => exact ⟨hs, rfl⟩
  | some ele =>
    have hk := storedBytes_eraseP _ c.ll ele hl
    have hkey := lookup_key c key ele hl
    refine ⟨?_, rfl⟩
    simp only [moveToFront, storedBytes, hkey]
    rw [hs, hk]

/-- With a budget that is not negative every sequence of calls returns, with
the counter equal to the stored sum, as an `int64`. -/
theorem run_sound {V : Type} [Value V] (ops : List (Op V)) (c : Cache V)
    (hM : 0 ≤ c.maxBytes) (hs : c.nbytes = i64 (storedBytes c.ll)) :
    ∃ c1, c.run ops = .ret c1 ∧ c1.nbytes = i64 (storedBytes c1.ll)
      ∧ c1.maxBytes = c.maxBytes := by
  induction ops generalizing c with
  | nil => exact ⟨c, rfl, hs, rfl⟩
  | cons op ops ih =>
    cases op with
    | add key value =>
      obtain ⟨c1, e1, s1, m1⟩ := Add_sound c key value hM hs
      obtain ⟨c2, e2, s2, m2⟩ := ih c1 (by rw [m1]; exact hM) s1
      exact ⟨c2, by simp [Cache.run, Cache.step, e1, e2], s2, m2.trans m1⟩
    | get key =>
      obtain ⟨s1, m1⟩ := Get_sound c key hs
      obtain ⟨c2, e2, s2, m2⟩ := ih (c.Get key).1 (by rw [m1]; exact hM) s1
      exact ⟨c2, by simp [Cache.run, Cache.step, e2], s2, m2.trans m1⟩

theorem New_sound {V : Type} [Value V] (maxBytes : Int) (onEvicted : Bool) :
    (New maxBytes onEvicted : Cache V).nbytes
      = i64 (storedBytes (New maxBytes onEvicted : Cache V).ll) := by
  simp [New, storedBytes, i64_zero]

/-- With a budget that is not negative the eviction loop only calls
`RemoveOldest` on a store that holds an entry. -/
theorem evictCalls_nonempty {V : Type} [Value V] (fuel : Nat) (c : Cache V)
    (hM : 0 ≤ c.maxBytes) (hs : c.nbytes = i64 (storedBytes c.ll)) :
    ∀ c1 ∈ Cache.evictCalls fuel c, c1.ll ≠ [] := by
  induction fuel generalizing c with
  | zero => simp [Cache.evictCalls]
  | succ n ih =>
    intro c1 hc1
    unfold Cache.evictCalls at hc1
    split at hc1
    · rename_i hcond
      have hne := over_budget_nonempty c hM hs hcond
      rcases List.mem_cons.mp hc1 with rfl | hrest
      · exact hne
      · cases hl : c.ll.getLast? with
        | none => exact absurd (List.getLast?_eq_none_iff.mp hl) hne
        | some kv =>
          simp only [Cache.RemoveOldest, hl] at hrest
          exact ih { c with
            ll := c.ll.dropLast
            nbytes := i64 (c.nbytes
              - i64 ((kv.key.utf8ByteSize : Int) + i64 (Value.Len kv.value)))
            evictions := if c.OnEvicted then c.evictions ++ [(kv.key, kv.value)]
              else c.evictions } hM (RemoveOldest_sound c kv hs hl) c1 hrest
    · simp at hc1

/-- C14 (as amended). Eviction from an empty store is unreachable: a store
built by `New` with a byte budget that is not negative returns from every
sequence of `Add` and `Get` calls, and on the store so reached every `Add`
returns and calls `RemoveOldest` only on stores that hold at least one entry. -/
theorem no_eviction_from_empty {V : Type} [Value V] (maxBytes : Int) (onEvicted : Bool)
    (h : 0 ≤ maxBytes) (ops : List (Op V)) :
    ∃ c, (New maxBytes onEvicted).run ops = .ret c
      ∧ ∀ (key : String) (value : V),
          (∀ c1 ∈ c.removeCalls key value, c1.ll ≠ [])
          ∧ ∃ c2, c.Add key value = .ret c2 := by
  obtain ⟨c, hc, hs, hm⟩ := run_sound ops (New maxBytes onEvicted) h
    (New_sound maxBytes onEvicted)
  have hM : 0 ≤ c.maxBytes := by rw [hm]; exact h
  refine ⟨c, hc, ?_⟩
  intro key value
  obtain ⟨h1, h2⟩ := insert_sound c key value hs
  constructor
  · exact evictCalls_nonempty _ _ (by rw [h2]; exact hM) h1
  · obtain ⟨c2, e2, _⟩ := Add_sound c key value hM hs
    exact ⟨c2, e2⟩

end lru

/-! ### The exact counter -/

namespace lru

theorem plain_sublist {V : Type} [Value V] (l1 l2 : List (entry V)) (h : Plain l2)
    (hs : l1.Sublist l2) : Plain l1 :=
  fun e he => h e (hs.subset he)

theorem plain_nonneg {V : Type} [Value V] (l : List (entry V)) (h : Plain l) :
    0 ≤ storedBytes l := by
  induction l with
  | nil => simp [storedBytes]
  | cons a l ih =>
    have h1 := (h a (List.mem_cons_self _ _)).1
    have h2 := ih (fun e he => h e (List.mem_cons_of_mem _ he))
    simp only [storedBytes, entry.size]
    omega

/-- When no sum leaves `int64`, `insert` keeps the counter equal to the exact
stored sum. -/
theorem insert_exact {V : Type} [Value V] (c : Cache V) (key : String) (value : V)
    (hs : c.nbytes = storedBytes c.ll) (hp : Plain c.ll) (hv : 0 ≤ Value.Len value)
    (hle : c.nbytes + ((key.utf8ByteSize : Int) + Value.Len value) ≤ maxInt64) :
    (c.insert key value).nbytes = storedBytes (c.insert key value).ll
      ∧ Plain (c.insert key value).ll
      ∧ (c.insert key value).nbytes ≤ c.nbytes + ((key.utf8ByteSize : Int) + Value.Len value)
      ∧ (c.insert key value).maxBytes = c.maxBytes := by
  have h0 : 0 ≤ c.nbytes := by rw [hs]; exact plain_nonneg _ hp
  unfold maxInt64 at hle
  unfold Cache.insert
  cases hl : c.lookup key with
  | none =>
    refine ⟨?_, ?_, ?_, rfl⟩
    · simp only [storedBytes, entry.size, ← hs]
      unfold i64
      omega
    · intro e he
      rcases List.mem_cons.mp he with rfl | he
      · exact ⟨hv, by unfold maxInt64; simp only; omega⟩
      · exact hp e he
    · simp only
      unfold i64
      omega
  | some ele =>
    have hk := lookup_key c key ele hl
    have hmem : ele ∈ c.ll := List.mem_of_find?_eq_some hl
    have hele := hp ele hmem
    unfold maxInt64 at hele
    have hsum := storedBytes_eraseP _ c.ll ele hl
    have hrest := plain_nonneg _ (plain_sublist _ _ hp
      (List.eraseP_sublist c.ll : (c.ll.eraseP (fun e => decide (e.key = key))).Sublist c.ll))
    rw [← hs] at hsum
    simp only [entry.size, hk] at hsum
    refine ⟨?_, ?_, ?_, rfl⟩
    · simp only [moveToFront, storedBytes, entry.size, hk]
      unfold i64
      omega
    · intro e he
      simp only [moveToFront, hk] at he
      rcases List.mem_cons.mp he with rfl | he
      · exact ⟨hv, by unfold maxInt64; simp only; omega⟩
      · exact hp e ((List.eraseP_sublist c.ll).subset he)
    · simp only
      unfold i64
      omega

/-- When the counter is the exact stored sum, `RemoveOldest` keeps it so. -/
theorem RemoveOldest_exact {V : Type} [Value V] (c : Cache V) (kv : entry V)
    (hs : c.nbytes = storedBytes c.ll) (hp : Plain c.ll) (hmax : c.nbytes ≤ maxInt64)
    (hl : c.ll.getLast? = some kv) :
    i64 (c.nbytes - i64 ((kv.key.utf8ByteSize : Int) + i64 (Value.Len kv.value)))
        = storedBytes c.ll.dropLast
      ∧ storedBytes c.ll.dropLast ≤ c.nbytes ∧ Plain c.ll.dropLast := by
  have hsum := storedBytes_dropLast c.ll kv hl
  have hpd := plain_sublist _ _ hp (List.dropLast_sublist c.ll)
  have h0 := plain_nonneg _ hpd
  have hkv := hp kv (by
    have h1 : c.ll.dropLast ++ [kv] = c.ll := List.dropLast_append_getLast? kv (by simp [hl])
    rw [← h1]
    simp)
  rw [← hs] at hsum
  simp only [entry.size] at hsum
  unfold maxInt64 at hmax hkv
  refine ⟨?_, ?_, hpd⟩
  · unfold i64
    omega
  · omega

/-- With a positive budget and an exact counter the eviction loop returns, and
the counter ends exact and within the budget. -/
theorem evict_exact {V : Type} [Value V] (fuel : Nat) (c : Cache V)
    (hs : c.nbytes = storedBytes c.ll) (hp : Plain c.ll) (hmax : c.nbytes ≤ maxInt64)
    (hpos : 0 < c.maxBytes) (hf : c.ll.length < fuel) :
    ∃ c1, Cache.evict fuel c = .ret c1 ∧ Within c.maxBytes c1 := by
  induction fuel generalizing c with
  | zero => omega
  | succ n ih =>
    rw [evict_succ]
    by_cases hc : c.maxBytes ≠ 0 ∧ c.maxBytes < c.nbytes
    · rw [if_pos hc]
      have hne : c.ll ≠ [] := by
        intro hnil
        rw [hnil] at hs
        simp only [storedBytes] at hs
        omega
      cases hl : c.ll.getLast? with
      | none => exact absurd (List.getLast?_eq_none_iff.mp hl) hne
      | some kv =>
        obtain ⟨r1, r2, r3⟩ := RemoveOldest_exact c kv hs hp hmax hl
        have hlen : c.ll.dropLast.length < n := by
          have : 0 < c.ll.length := List.length_pos.mpr hne
          rw [List.length_dropLast]
          omega
        simp only [Cache.RemoveOldest, hl]
        exact ih { c with
          ll := c.ll.dropLast
          nbytes := i64 (c.nbytes - i64 ((kv.key.utf8ByteSize : Int) + i64 (Value.Len kv.value)))
          evictions := if c.OnEvicted then c.evictions ++ [(kv.key, kv.value)]
            else c.evictions }
          r1 r3 (by simp only [r1]; omega) hpos hlen
    · rw [if_neg hc]
      refine ⟨c, rfl, rfl, hs, ?_, hp⟩
      by_contra hgt
      exact hc ⟨by omega, by omega⟩

theorem Add_within {V : Type} [Value V] (M : Int) (hM : 0 < M) (c : Cache V)
    (key : String) (value : V) (h : Within M c) (hb : (Op.add key value).bounded M) :
    ∃ c1, c.Add key value = .ret c1 ∧ Within M c1 := by
  obtain ⟨hm, hs, hle, hp⟩ := h
  obtain ⟨hv, hsz⟩ := hb
  obtain ⟨i1, i2, i3, i4⟩ := insert_exact c key value hs hp hv (by omega)
  obtain ⟨c1, e1, w1⟩ := evict_exact ((c.insert key value).ll.length + 1)
    (c.insert key value) i1 i2 (by omega) (by rw [i4, hm]; exact hM) (Nat.lt_succ_self _)
  rw [i4, hm] at w1
  exact ⟨c1, e1, w1⟩

theorem Get_within {V : Type} [Value V] (M : Int) (c : Cache V) (key : String)
    (h : Within M c) : Within M (c.Get key).1 := by
  obtain ⟨hm, hs, hb, hp⟩ := h
  unfold Cache.Get
  cases hl : c.lookup key with
  | none => exact ⟨hm, hs, hb, hp⟩
  | some ele =>
    have hk := storedBytes_eraseP _ c.ll ele hl
    have hkey := lookup_key c key ele hl
    have hmem : ele ∈ c.ll := List.mem_of_find?_eq_some hl
    refine ⟨hm, ?_, hb, ?_⟩
    · simp only [moveToFront, storedBytes, hkey]
      rw [hs, hk]
    · intro e he
      simp only [moveToFront, hkey] at he
      rcases List.mem_cons.mp he with rfl | he
      · exact hp _ hmem
      · exact hp e ((List.eraseP_sublist c.ll).subset he)

theorem run_within {V : Type} [Value V] (M : Int) (hM : 0 < M) (ops : List (Op V))
    (hb : ∀ op ∈ ops, op.bounded M) (c : Cache V) (h : Within M c) :
    ∃ c1, c.run ops = .ret c1 ∧ Within M c1 := by
  induction ops generalizing c with
  | nil => exact ⟨c, rfl, h⟩
  | cons op ops ih =>
    have hb1 := hb op (List.mem_cons_self _ _)
    have hb2 : ∀ o ∈ ops, o.bounded M := fun o ho => hb o (List.mem_cons_of_mem _ ho)
    cases op with
    | add key value =>
      obtain ⟨c1, e1, w1⟩ := Add_within M hM c key value h hb1
      obtain ⟨c2, e2, w2⟩ := ih hb2 c1 w1
      exact ⟨c2, by simp [Cache.run, Cache.step, e1, e2], w2⟩
    | get key =>
      obtain ⟨c2, e2, w2⟩ := ih hb2 (c.Get key).1 (Get_within M c key h)
      exact ⟨c2, by simp [Cache.run, Cache.step, e2], w2⟩

theorem New_within {V : Type} [Value V] (M : Int) (onEvicted : Bool) (hM : 0 < M) :
    Within M (New M onEvicted : Cache V) :=
  ⟨rfl, by simp [New, storedBytes], by simp only [New]; omega, by simp [New, Plain]⟩

/-- C1 (as amended). Eviction bound: a store built by `New` with a positive
byte budget returns from every finite sequence of `Get` calls and of `Add`
calls of values of non-negative length whose entry, added to the budget, stays
within `int64`, and the sum of `len(key) + value.Len()` over the entries it
then stores is at most the budget. -/
theorem eviction_bound {V : Type} [Value V] (maxBytes : Int) (onEvicted : Bool)
    (h : 0 < maxBytes) (ops : List (Op V)) (hb : ∀ op ∈ ops, op.bounded maxBytes) :
    ∃ c, (New maxBytes onEvicted).run ops = .ret c ∧ storedBytes c.ll ≤ maxBytes := by
  obtain ⟨c, hc, _, hs, hle, _⟩ := run_within maxBytes h ops hb (New maxBytes onEvicted)
    (New_within maxBytes onEvicted h)
  exact ⟨c, hc, by rw [← hs]; exact hle⟩

end lru

namespace lru

/-! ### Eviction order -/

theorem evict_split {V : Type} [Value V] (fuel : Nat) (c c1 : Cache V)
    (h : Cache.evict fuel c = .ret c1) : ∃ ev, c.ll = c1.ll ++ ev := by
  induction fuel generalizing c with
  | zero =>
    unfold Cache.evict at h
    split at h
    · cases h
    · cases h
      exact ⟨[], by simp⟩
  | succ n ih =>
    unfold Cache.evict at h
    split at h
    · cases hl : c.ll.getLast? with
      | none => simp [Cache.RemoveOldest, hl] at h
      | some kv =>
        simp only [Cache.RemoveOldest, hl] at h
        obtain ⟨ev, hev⟩ := ih _ h
        simp only at hev
        refine ⟨ev ++ [kv], ?_⟩
        rw [← List.append_assoc, ← hev]
        exact (List.dropLast_append_getLast? kv (by simp [hl])).symm
    · cases h
      exact ⟨[], by simp⟩

theorem eraseP_key_ne {V : Type} (lastUse : String → Nat) (k : String)
    (l : List (entry V)) (ele : entry V)
    (hp : l.Pairwise (fun a b => lastUse b.key < lastUse a.key))
    (hf : l.find? (fun e => decide (e.key = k)) = some ele) :
    ∀ x ∈ l.eraseP (fun e => decide (e.key = k)), x.key ≠ k := by
  induction l with
  | nil => simp at hf
  | cons a l ih =>
    rw [List.pairwise_cons] at hp
    by_cases ha : a.key = k
    · intro x hx
      simp [List.eraseP_cons, ha] at hx
      have := hp.1 x hx
      intro hxk
      rw [hxk, ← ha] at this
      exact Nat.lt_irrefl _ this
    · simp [List.find?_cons, ha] at hf
      intro x hx
      simp [List.eraseP_cons, ha] at hx
      rcases hx with rfl | hx
      · exact ha
      · exact ih hp.2 hf x hx

/-- Putting a just-used entry in front of older entries keeps the list ordered
by last use. -/
theorem recent_front {V : Type} (lastUse : String → Nat) (t : Nat) (k : String)
    (l rest : List (entry V)) (e : entry V) (h : Recent lastUse t l)
    (hsub : rest.Sublist l) (hk : e.key = k) (hr : ∀ x ∈ rest, x.key ≠ k) :
    Recent (useAt lastUse t k) (t + 1) (e :: rest) := by
  have hsame : ∀ x ∈ rest, useAt lastUse t k x.key = lastUse x.key := by
    intro x hx
    have := hr x hx
    simp [useAt, Ne.symm this]
  constructor
  · rw [List.pairwise_cons]
    constructor
    · intro x hx
      rw [hsame x hx]
      have := h.2 x (hsub.subset hx)
      simp [useAt, hk]
      omega
    · have hp := h.1.sublist hsub
      refine hp.imp_of_mem ?_
      intro a b ha hb hab
      rw [hsame a ha, hsame b hb]
      exact hab
  · intro x hx
    rcases List.mem_cons.mp hx with rfl | hx
    · simp [useAt, hk]
    · rw [hsame x hx]
      have := h.2 x (hsub.subset hx)
      omega

/-- The list after the first half of `Add` is ordered by last use and holds an
entry for the added key and for every key stored before. -/
theorem insert_recent {V : Type} [Value V] (lastUse : String → Nat) (t : Nat)
    (c : Cache V) (k : String) (v : V) (h : Recent lastUse t c.ll) :
    Recent (useAt lastUse t k) (t + 1) (c.insert k v).ll
      ∧ ∀ κ, (c.stores κ ∨ κ = k) → ∃ y ∈ (c.insert k v).ll, y.key = κ := by
  unfold Cache.insert
  cases hl : c.lookup k with
  | none =>
    have hno : ∀ x ∈ c.ll, x.key ≠ k := by
      intro x hx
      have := List.find?_eq_none.mp hl x hx
      simpa using this
    refine ⟨recent_front lastUse t k c.ll c.ll _ h (List.Sublist.refl _) rfl hno, ?_⟩
    intro κ hκ
    rcases hκ with ⟨x, hx, hxk⟩ | rfl
    · exact ⟨x, List.mem_cons_of_mem _ hx, hxk⟩
    · exact ⟨_, List.mem_cons_self _ _, rfl⟩
  | some ele =>
    have hk := lookup_key c k ele hl
    have hne := eraseP_key_ne lastUse k c.ll ele h.1 hl
    simp only [moveToFront, hk]
    refine ⟨recent_front lastUse t k c.ll _ _ h (List.eraseP_sublist _) rfl hne, ?_⟩
    intro κ hκ
    by_cases hκk : κ = k
    · exact ⟨_, List.mem_cons_self _ _, hκk.symm⟩
    · rcases hκ with ⟨x, hx, hxk⟩ | hκ
      · refine ⟨x, List.mem_cons_of_mem _ ?_, hxk⟩
        rw [List.mem_eraseP_of_neg]
        · exact hx
        · simp [hxk, hκk]
      · exact absurd hκ hκk

theorem recent_of_append {V : Type} (lastUse : String → Nat) (t : Nat)
    (l1 l2 : List (entry V)) (h : Recent lastUse t (l1 ++ l2)) : Recent lastUse t l1 :=
  ⟨(List.pairwise_append.mp h.1).1, fun e he => h.2 e (List.mem_append_left _ he)⟩

theorem step_add_eq {V : Type} [Value V] (s s1 : Timed V) (k : String) (v : V)
    (h : s.step (.add k v) = .ret s1) :
    Cache.evict ((s.cache.insert k v).ll.length + 1) (s.cache.insert k v) = .ret s1.cache
      ∧ s1.lastUse = useAt s.lastUse s.clock k ∧ s1.clock = s.clock + 1 := by
  unfold Timed.step at h
  simp only [Cache.step, Cache.Add] at h
  split at h
  · rename_i c1 hc
    cases h
    refine ⟨hc, ?_, rfl⟩
    funext x
    simp [Cache.uses, useAt]
  · cases h
  · cases h

/-- Every call keeps the list ordered by last use. -/
theorem step_recent {V : Type} [Value V] (s s1 : Timed V) (op : Op V)
    (h : Recent s.lastUse s.clock s.cache.ll) (hs : s.step op = .ret s1) :
    Recent s1.lastUse s1.clock s1.cache.ll := by
  cases op with
  | add k v =>
    obtain ⟨he, hl, hc⟩ := step_add_eq s s1 k v hs
    obtain ⟨ev, hev⟩ := evict_split _ _ _ he
    have hr := (insert_recent s.lastUse s.clock s.cache k v h).1
    rw [hev] at hr
    rw [hl, hc]
    exact recent_of_append _ _ _ _ hr
  | get k =>
    simp only [Timed.step, Cache.step] at hs
    cases hs
    rcases hl : s.cache.lookup k with _ | ele
    · have h1 : (s.cache.Get k).1 = s.cache := by simp [Cache.Get, hl]
      have h2 : s.cache.uses (.get k) = none := by simp [Cache.uses, hl]
      simp only [h1, h2]
      exact ⟨by simpa using h.1, fun e he => by simpa using Nat.le_succ_of_le (h.2 e he)⟩
    · have hk := lookup_key s.cache k ele hl
      have hne := eraseP_key_ne s.lastUse k s.cache.ll ele h.1 hl
      have h1 : (s.cache.Get k).1.ll = ele :: s.cache.ll.eraseP (fun x => decide (x.key = k)) := by
        simp [Cache.Get, hl, moveToFront, hk]
      have h2 : s.cache.uses (.get k) = some k := by simp [Cache.uses, hl]
      have := recent_front s.lastUse s.clock k s.cache.ll _ ele h (List.eraseP_sublist _) hk hne
      simp only [h1, h2]
      simpa [useAt] using this

theorem run_recent {V : Type} [Value V] (ops : List (Op V)) (s s1 : Timed V)
    (h : Recent s.lastUse s.clock s.cache.ll) (hs : s.run ops = .ret s1) :
    Recent s1.lastUse s1.clock s1.cache.ll := by
  induction ops generalizing s with
  | nil =>
    simp only [Timed.run] at hs
    cases hs
    exact h
  | cons op ops ih =>
    simp only [Timed.run] at hs
    split at hs
    · rename_i s2 h2
      exact ih s2 (step_recent s s2 op h h2) hs
    · cases hs
    · cases hs

/-- What an `Add` evicts was used before everything that it keeps. -/
theorem add_evicts_oldest {V : Type} [Value V] (s s1 : Timed V) (k : String) (v : V)
    (h : Recent s.lastUse s.clock s.cache.ll) (hs : s.step (.add k v) = .ret s1)
    (κ σ : String) (hκ : s.cache.stores κ ∨ κ = k) (hgone : ¬ s1.cache.stores κ)
    (hσ : s1.cache.stores σ) : s1.lastUse κ < s1.lastUse σ := by
  obtain ⟨he, hl, _⟩ := step_add_eq s s1 k v hs
  obtain ⟨ev, hev⟩ := evict_split _ _ _ he
  obtain ⟨hr, hin⟩ := insert_recent s.lastUse s.clock s.cache k v h
  obtain ⟨y, hy, hyk⟩ := hin κ hκ
  obtain ⟨z, hz, hzk⟩ := hσ
  rw [hev] at hr hy
  have hyev : y ∈ ev := by
    rcases List.mem_append.mp hy with hy1 | hy2
    · exact absurd ⟨y, hy1, hyk⟩ hgone
    · exact hy2
  have := (List.pairwise_append.mp hr.1).2.2 z hz y hyev
  rw [hl, ← hyk, ← hzk]
  exact this

theorem insert_fresh {V : Type} [Value V] (c : Cache V) (k : String) (v : V)
    (hl : c.lookup k = none) :
    c.insert k v = { c with
      ll := { key := k, value := v } :: c.ll
      nbytes := i64 (c.nbytes + i64 (i64 (Value.Len v) + (k.utf8ByteSize : Int))) } := by
  simp [Cache.insert, hl]

/-- Adding a new key that fits within the budget evicts nothing. -/
theorem Add_fresh_fits {V : Type} [Value V] (c : Cache V) (k : String) (v : V)
    (hl : c.lookup k = none) (hv : 0 ≤ Value.Len v) (hn : 0 ≤ c.nbytes)
    (hfit : c.nbytes + (Value.Len v + (k.utf8ByteSize : Int)) ≤ c.maxBytes)
    (hmax : c.maxBytes ≤ maxInt64) :
    ∃ c1, c.Add k v = .ret c1 ∧ c1.ll = { key := k, value := v } :: c.ll
      ∧ c1.nbytes = c.nbytes + (Value.Len v + (k.utf8ByteSize : Int))
      ∧ c1.maxBytes = c.maxBytes := by
  unfold maxInt64 at hmax
  have hnb : i64 (c.nbytes + i64 (i64 (Value.Len v) + (k.utf8ByteSize : Int)))
      = c.nbytes + (Value.Len v + (k.utf8ByteSize : Int)) := by
    unfold i64
    omega
  refine ⟨{ c with
      ll := { key := k, value := v } :: c.ll
      nbytes := i64 (c.nbytes + i64 (i64 (Value.Len v) + (k.utf8ByteSize : Int))) },
    ?_, rfl, hnb, rfl⟩
  rw [Cache.Add, insert_fresh c k v hl]
  apply evict_stop
  intro h
  have h2 := h.2
  simp only [hnb] at h2
  omega

/-- Adding a new key that exceeds the budget by no more than the size of the
oldest entry evicts exactly that entry. -/
theorem Add_fresh_evicts_one {V : Type} [Value V] (c : Cache V) (k : String) (v : V)
    (front : List (entry V)) (kv : entry V) (hll : c.ll = front ++ [kv])
    (hl : c.lookup k = none) (hpos : 0 < c.maxBytes)
    (hv : 0 ≤ Value.Len v) (hn : 0 ≤ c.nbytes)
    (hkvle : (kv.key.utf8ByteSize : Int) + Value.Len kv.value ≤ maxInt64)
    (hraw : c.nbytes + (Value.Len v + (k.utf8ByteSize : Int)) ≤ maxInt64)
    (hover : c.maxBytes < c.nbytes + (Value.Len v + (k.utf8ByteSize : Int)))
    (hfit : c.nbytes + (Value.Len v + (k.utf8ByteSize : Int))
      - ((kv.key.utf8ByteSize : Int) + Value.Len kv.value) ≤ c.maxBytes) :
    ∃ c1, c.Add k v = .ret c1 ∧ c1.ll = { key := k, value := v } :: front
      ∧ c1.maxBytes = c.maxBytes := by
  unfold maxInt64 at hraw hkvle
  have hnb : i64 (c.nbytes + i64 (i64 (Value.Len v) + (k.utf8ByteSize : Int)))
      = c.nbytes + (Value.Len v + (k.utf8ByteSize : Int)) := by
    unfold i64
    omega
  have hnb2 : i64 (c.nbytes + (Value.Len v + (k.utf8ByteSize : Int))
        - i64 ((kv.key.utf8ByteSize : Int) + i64 (Value.Len kv.value)))
      = c.nbytes + (Value.Len v + (k.utf8ByteSize : Int))
        - ((kv.key.utf8ByteSize : Int) + Value.Len kv.value) := by
    unfold i64
    omega
  have hlast : ({ key := k, value := v } :: c.ll).getLast? = some kv := by
    rw [hll, ← List.cons_append, List.getLast?_append]
    simp
  have hdrop : ({ key := k, value := v } :: c.ll).dropLast = { key := k, value := v } :: front := by
    rw [hll, ← List.cons_append, List.dropLast_concat]
  refine ⟨{ c with
      ll := { key := k, value := v } :: front
      nbytes := c.nbytes + (Value.Len v + (k.utf8ByteSize : Int))
        - ((kv.key.utf8ByteSize : Int) + Value.Len kv.value)
      evictions := if c.OnEvicted then c.evictions ++ [(kv.key, kv.value)]
        else c.evictions }, ?_, rfl, rfl⟩
  rw [Cache.Add, insert_fresh c k v hl, hnb]
  rw [evict_succ, if_pos ⟨by simp only; omega, hover⟩]
  simp only [Cache.RemoveOldest, hlast, hdrop, hnb2]
  apply evict_stop
  intro h
  exact absurd hfit (not_le.mpr h.2)

theorem add_after_get_scenario {V : Type} [Value V] (onEvicted : Bool) (ka kb kc : String)
    (va vb vc : V) (hab : ka ≠ kb) (hca : kc ≠ ka) (hcb : kc ≠ kb)
    (hva : 0 ≤ Value.Len va) (hvb : 0 ≤ Value.Len vb) (hvc : 0 ≤ Value.Len vc)
    (hpos : 0 < (entry.mk kc vc).size) (hle : (entry.mk kc vc).size ≤ (entry.mk kb vb).size)
    (hsum : (entry.mk ka va).size + (entry.mk kb vb).size + (entry.mk kc vc).size ≤ maxInt64) :
    ∃ c, (New ((entry.mk ka va).size + (entry.mk kb vb).size) onEvicted).run
        [.add ka va, .add kb vb, .get ka, .add kc vc] = .ret c
      ∧ c.ll = [⟨kc, vc⟩, ⟨ka, va⟩] := by
  simp only [entry.size] at hpos hle hsum ⊢
  have h1 : ¬ ka = kb := hab
  have h2 : ¬ kb = ka := fun h => hab h.symm
  have h3 : ¬ ka = kc := fun h => hca h.symm
  have h4 : ¬ kb = kc := fun h => hcb h.symm
  obtain ⟨c1, e1, l1, n1, m1⟩ := Add_fresh_fits
    (New ((ka.utf8ByteSize : Int) + Value.Len va + ((kb.utf8ByteSize : Int) + Value.Len vb))
      onEvicted) ka va (by simp [Cache.lookup, New]) hva (by simp [New])
    (by simp only [New]; omega) (by simp only [New]; omega)
  simp only [New] at l1 n1 m1
  obtain ⟨c2, e2, l2, n2, m2⟩ := Add_fresh_fits c1 kb vb (by simp [Cache.lookup, l1, h1]) hvb
    (by rw [n1]; omega) (by rw [n1, m1]; omega) (by rw [m1]; omega)
  have l3 : (c2.Get ka).1.ll = [⟨ka, va⟩, ⟨kb, vb⟩] := by
    simp [Cache.Get, Cache.lookup, l2, l1, h2, moveToFront]
  have n3 : (c2.Get ka).1.nbytes = c2.nbytes := by
    simp [Cache.Get, Cache.lookup, l2, l1, h2]
  have m3 : (c2.Get ka).1.maxBytes = c2.maxBytes := by
    simp [Cache.Get, Cache.lookup, l2, l1, h2]
  obtain ⟨c4, e4, l4, _⟩ := Add_fresh_evicts_one (c2.Get ka).1 kc vc [⟨ka, va⟩] ⟨kb, vb⟩
    (by rw [l3]; rfl) (by simp [Cache.lookup, l3, h3, h4])
    (by rw [m3, m2, m1]; omega) hvc (by rw [n3, n2, n1]; omega) (by simp only; omega)
    (by rw [n3, n2, n1]; omega)
    (by rw [m3, m2, m1, n3, n2, n1]; omega)
    (by rw [m3, m2, m1, n3, n2, n1]; simp only; omega)
  exact ⟨c4, by simp only [Cache.run, Cache.step, e1, e2, e4], l4⟩

/-- The fuel that `Add` gives to the eviction loop is enough: the loop ends by
returning or by a panic, never by running out of iterations. -/
theorem evict_fuel_enough {V : Type} [Value V] (fuel : Nat) (c : Cache V)
    (hf : c.ll.length < fuel) : Cache.evict fuel c ≠ .hang := by
  induction fuel generalizing c with
  | zero => omega
  | succ n ih =>
    rw [evict_succ]
    split
    · cases hl : c.ll.getLast? with
      | none => simp [Cache.RemoveOldest, hl]
      | some kv =>
        have hne : c.ll ≠ [] := by
          intro hnil
          simp [hnil] at hl
        have hpos : 0 < c.ll.length := List.length_pos.mpr hne
        simp only [Cache.RemoveOldest, hl]
        apply ih
        simp only [List.length_dropLast]
        omega
    · simp

theorem Add_fuel_enough {V : Type} [Value V] (c : Cache V) (key : String) (value : V) :
    c.Add key value ≠ .hang :=
  evict_fuel_enough _ _ (Nat.lt_succ_self _)

/-- The timed store runs the plain store: it returns exactly when the plain
store returns, and holds the store that the plain run produces. -/
theorem timed_run_cache {V : Type} [Value V] (ops : List (Op V)) (s : Timed V) (c1 : Cache V)
    (h : s.cache.run ops = .ret c1) : ∃ s1, s.run ops = .ret s1 ∧ s1.cache = c1 := by
  induction ops generalizing s with
  | nil =>
    simp only [Cache.run] at h
    cases h
    exact ⟨s, rfl, rfl⟩
  | cons op ops ih =>
    simp only [Cache.run] at h
    cases hstep : s.cache.step op with
    | ret c2 =>
      rw [hstep] at h
      obtain ⟨s1, hs1, hc1⟩ := ih
        { cache := c2, clock := s.clock + 1
          lastUse := fun k => if s.cache.uses op = some k then s.clock + 1 else s.lastUse k } h
      exact ⟨s1, by simp only [Timed.run, Timed.step, hstep]; exact hs1, hc1⟩
    | panic msg => rw [hstep] at h; cases h
    | hang => rw [hstep] at h; cases h

/-- A store reached from `New` has at most one entry for every key, which is
what lets the key stand for the list element that the index points to. -/
theorem run_keys_distinct {V : Type} [Value V] (maxBytes : Int) (onEvicted : Bool)
    (ops : List (Op V)) (c : Cache V) (h : (New maxBytes onEvicted).run ops = .ret c) :
    c.ll.Pairwise (fun a b => a.key ≠ b.key) := by
  obtain ⟨s1, hs1, hc1⟩ := timed_run_cache ops (Timed.New maxBytes onEvicted) c h
  have h0 : Recent (Timed.New maxBytes onEvicted : Timed V).lastUse
      (Timed.New maxBytes onEvicted : Timed V).clock
      (Timed.New maxBytes onEvicted : Timed V).cache.ll := by
    simp [Timed.New, New, Recent]
  have hr := (run_recent ops _ s1 h0 hs1).1
  rw [hc1] at hr
  refine hr.imp ?_
  intro a b hab heq
  rw [heq] at hab
  exact Nat.lt_irrefl _ hab

/-- C2 (as amended). LRU eviction order: whenever an `Add` returns, every key
it evicted (stored before the call, or the added key itself, and not stored
afterwards) was last used, by an `Add` or by a `Get` that found it, strictly
before every key that is still stored.  In particular, for distinct keys, values
of non-negative length, a budget of exactly the sizes of A and B, an entry C of
positive size no larger than B, and sizes of A, B and C that together stay
within `int64`, the calls Add A, Add B, Get A, Add C leave exactly C and A
stored, so B is evicted. -/
theorem eviction_order {V : Type} [Value V] :
    (∀ (maxBytes : Int) (onEvicted : Bool) (ops : List (Op V)) (s s1 : Timed V)
        (k : String) (v : V),
        (Timed.New maxBytes onEvicted).run ops = .ret s →
        s.step (.add k v) = .ret s1 →
        ∀ κ σ : String, (s.cache.stores κ ∨ κ = k) → ¬ s1.cache.stores κ →
          s1.cache.stores σ → s1.lastUse κ < s1.lastUse σ)
    ∧ (∀ (onEvicted : Bool) (ka kb kc : String) (va vb vc : V),
        ka ≠ kb → kc ≠ ka → kc ≠ kb →
        0 ≤ Value.Len va → 0 ≤ Value.Len vb → 0 ≤ Value.Len vc →
        0 < (entry.mk kc vc).size → (entry.mk kc vc).size ≤ (entry.mk kb vb).size →
        (entry.mk ka va).size + (entry.mk kb vb).size + (entry.mk kc vc).size ≤ maxInt64 →
        ∃ c, (New ((entry.mk ka va).size + (entry.mk kb vb).size) onEvicted).run
            [.add ka va, .add kb vb, .get ka, .add kc vc] = .ret c
          ∧ c.ll = [⟨kc, vc⟩, ⟨ka, va⟩]
          ∧ c.stores ka ∧ c.stores kc ∧ ¬ c.stores kb) := by
  constructor
  · intro maxBytes onEvicted ops s s1 k v hrun hstep κ σ hκ hgone hσ
    have h0 : Recent (Timed.New maxBytes onEvicted : Timed V).lastUse
        (Timed.New maxBytes onEvicted : Timed V).clock
        (Timed.New maxBytes onEvicted : Timed V).cache.ll := by
      simp [Timed.New, New, Recent]
    exact add_evicts_oldest s s1 k v (run_recent ops _ s h0 hrun) hstep κ σ hκ hgone hσ
  · intro onEvicted ka kb kc va vb vc hab hca hcb hva hvb hvc hpos hle hsum
    obtain ⟨c, hc, hl⟩ := add_after_get_scenario onEvicted ka kb kc va vb vc hab hca hcb
      hva hvb hvc hpos hle hsum
    refine ⟨c, hc, hl, ?_, ?_, ?_⟩
    · exact ⟨⟨ka, va⟩, by simp [hl], rfl⟩
    · exact ⟨⟨kc, vc⟩, by simp [hl], rfl⟩
    · rintro ⟨e, he, hek⟩
      simp only [hl, List.mem_cons, List.mem_singleton, List.not_mem_nil, or_false] at he
      rcases he with rfl | rfl
      · exact hcb hek
      · exact hab hek

end lru

/-! ### Reading back what was added -/

namespace lru

theorem getLast_cons_concat {V : Type} (e kv : entry V) (front : List (entry V)) :
    (e :: (front ++ [kv])).getLast? = some kv ∧ (e :: (front ++ [kv])).dropLast = e :: front := by
  constructor
  · rw [← List.cons_append, List.getLast?_append]
    simp
  · rw [← List.cons_append, List.dropLast_concat]

/-- Whenever the eviction loop returns, the counter is still the stored sum, as
an `int64`, whatever the budget. -/
theorem evict_inv {V : Type} [Value V] (fuel : Nat) (c c1 : Cache V)
    (h : Cache.evict fuel c = .ret c1) (hs : c.nbytes = i64 (storedBytes c.ll)) :
    c1.nbytes = i64 (storedBytes c1.ll) ∧ c1.maxBytes = c.maxBytes := by
  induction fuel generalizing c with
  | zero =>
    unfold Cache.evict at h
    split at h
    · cases h
    · cases h
      exact ⟨hs, rfl⟩
  | succ n ih =>
    rw [evict_succ] at h
    split at h
    · cases hl : c.ll.getLast? with
      | none => simp [Cache.RemoveOldest, hl] at h
      | some kv =>
        simp only [Cache.RemoveOldest, hl] at h
        exact ih { c with
          ll := c.ll.dropLast
          nbytes := i64 (c.nbytes - i64 ((kv.key.utf8ByteSize : Int) + i64 (Value.Len kv.value)))
          evictions := if c.OnEvicted then c.evictions ++ [(kv.key, kv.value)]
            else c.evictions } h (RemoveOldest_sound c kv hs hl)
    · cases h
      exact ⟨hs, rfl⟩

/-- Whenever a sequence of calls returns, the counter is still the stored sum,
as an `int64`, whatever the budget. -/
theorem run_inv {V : Type} [Value V] (ops : List (Op V)) (c c1 : Cache V)
    (h : c.run ops = .ret c1) (hs : c.nbytes = i64 (storedBytes c.ll)) :
    c1.nbytes = i64 (storedBytes c1.ll) ∧ c1.maxBytes = c.maxBytes := by
  induction ops generalizing c with
  | nil =>
    simp only [Cache.run] at h
    cases h
    exact ⟨hs, rfl⟩
  | cons op ops ih =>
    simp only [Cache.run] at h
    cases hstep : c.step op with
    | ret c2 =>
      rw [hstep] at h
      have h2 : c2.nbytes = i64 (storedBytes c2.ll) ∧ c2.maxBytes = c.maxBytes := by
        cases op with
        | add key value =>
          obtain ⟨i1, i2⟩ := insert_sound c key value hs
          obtain ⟨j1, j2⟩ := evict_inv _ _ c2 hstep i1
          exact ⟨j1, j2.trans i2⟩
        | get key =>
          simp only [Cache.step] at hstep
          cases hstep
          exact Get_sound c key hs
      obtain ⟨k1, k2⟩ := ih c2 h h2.1
      exact ⟨k1, k2.trans h2.2⟩
    | panic msg => rw [hstep] at h; cases h
    | hang => rw [hstep] at h; cases h

/-- After the first half of `Add` the added entry is at the front, and no other
entry has its key when the keys were distinct. -/
theorem insert_front {V : Type} [Value V] (c : Cache V) (k : String) (v : V) :
    ∃ rest, (c.insert k v).ll = { key := k, value := v } :: rest
      ∧ (c.ll.Pairwise (fun a b => a.key ≠ b.key) → ∀ x ∈ rest, x.key ≠ k) := by
  unfold Cache.insert
  cases hl : c.lookup k with
  | none =>
    refine ⟨c.ll, rfl, ?_⟩
    intro _ x hx
    have := List.find?_eq_none.mp hl x hx
    simpa using this
  | some ele =>
    have hk := lookup_key c k ele hl
    refine ⟨c.ll.eraseP (fun x => decide (x.key = k)), by simp [moveToFront, hk], ?_⟩
    intro hd
    clear hk
    unfold Cache.lookup at hl
    generalize c.ll = l at hl hd
    induction l with
    | nil => simp at hl
    | cons a l ih =>
      rw [List.pairwise_cons] at hd
      by_cases ha : a.key = k
      · intro x hx
        simp only [List.eraseP_cons, ha, decide_True, cond_true] at hx
        intro hxk
        exact hd.1 x hx (ha.trans hxk.symm)
      · simp only [List.find?_cons, ha, decide_False] at hl
        intro x hx
        simp only [List.eraseP_cons, ha, decide_False, cond_false, List.mem_cons] at hx
        rcases hx with rfl | hx
        · exact ha
        · exact ih hl hd.2 x hx

/-- The eviction loop keeps a front entry that fits the budget by itself. -/
theorem evict_keeps_front {V : Type} [Value V] (fuel : Nat) (c : Cache V) (e : entry V)
    (rest : List (entry V)) (hll : c.ll = e :: rest) (hs : c.nbytes = i64 (storedBytes c.ll))
    (hfit : c.maxBytes = 0 ∨ i64 e.size ≤ c.maxBytes) (hf : rest.length < fuel) :
    ∃ c1 rest1 ev, Cache.evict fuel c = .ret c1 ∧ c1.ll = e :: rest1 ∧ rest = rest1 ++ ev := by
  induction fuel generalizing c rest with
  | zero => omega
  | succ n ih =>
    rw [evict_succ]
    by_cases hc : c.maxBytes ≠ 0 ∧ c.maxBytes < c.nbytes
    · rw [if_pos hc]
      have hfit2 : i64 e.size ≤ c.maxBytes := by
        rcases hfit with h0 | h1
        · exact absurd h0 hc.1
        · exact h1
      have hne : rest ≠ [] := by
        intro hnil
        rw [hll, hnil] at hs
        simp only [storedBytes, add_zero] at hs
        omega
      rcases List.eq_nil_or_concat rest with hnil | ⟨front, kv, hrest⟩
      · exact absurd hnil hne
      · rw [List.concat_eq_append] at hrest
        subst hrest
        obtain ⟨g1, g2⟩ := getLast_cons_concat e kv front
        have hd : c.ll.dropLast = e :: front := by rw [hll]; exact g2
        have hr := RemoveOldest_sound c kv hs (by rw [hll]; exact g1)
        rw [hd] at hr
        simp only [Cache.RemoveOldest, hll, g1, g2]
        obtain ⟨c1, rest1, ev, e1, l1, r1⟩ := ih
          { c with
            ll := e :: front
            nbytes := i64 (c.nbytes
              - i64 ((kv.key.utf8ByteSize : Int) + i64 (Value.Len kv.value)))
            evictions := if c.OnEvicted then c.evictions ++ [(kv.key, kv.value)]
              else c.evictions }
          front rfl hr hfit
          (by simp only [List.length_append, List.length_singleton] at hf; omega)
        exact ⟨c1, rest1, ev ++ [kv], e1, l1, by rw [r1, List.append_assoc]⟩
    · rw [if_neg hc]
      exact ⟨c, rest, [], rfl, hll, by simp⟩

/-- With an exact counter the eviction loop empties a store whose front entry
alone exceeds the budget. -/
theorem evict_flushes {V : Type} [Value V] (fuel : Nat) (c : Cache V) (e : entry V)
    (rest : List (entry V)) (hll : c.ll = e :: rest) (hs : c.nbytes = storedBytes c.ll)
    (hp : Plain c.ll) (hmax : c.nbytes ≤ maxInt64)
    (hpos : 0 < c.maxBytes) (hbig : c.maxBytes < e.size) (hf : rest.length < fuel) :
    ∃ c1, Cache.evict fuel c = .ret c1 ∧ c1.ll = [] ∧ c1.nbytes = 0
      ∧ c1.maxBytes = c.maxBytes := by
  induction fuel generalizing c rest with
  | zero => omega
  | succ n ih =>
    rw [evict_succ]
    have hc : c.maxBytes ≠ 0 ∧ c.maxBytes < c.nbytes := by
      have h0 := plain_nonneg rest (plain_sublist _ _ hp (by rw [hll]; exact List.sublist_cons_self e rest))
      rw [hll] at hs
      simp only [storedBytes] at hs
      constructor
      · omega
      · omega
    rw [if_pos hc]
    rcases List.eq_nil_or_concat rest with hnil | ⟨front, kv, hrest⟩
    · subst hnil
      obtain ⟨r1, _, _⟩ := RemoveOldest_exact c e hs hp hmax (by rw [hll]; rfl)
      rw [hll] at r1
      simp only [List.dropLast_single, storedBytes] at r1
      simp only [Cache.RemoveOldest, hll, List.getLast?_singleton, List.dropLast_single]
      refine ⟨_, evict_stop _ _ ?_, rfl, r1, rfl⟩
      simp only [r1]
      intro h
      omega
    · rw [List.concat_eq_append] at hrest
      subst hrest
      obtain ⟨g1, g2⟩ := getLast_cons_concat e kv front
      have hd : c.ll.dropLast = e :: front := by rw [hll]; exact g2
      obtain ⟨r1, r2, r3⟩ := RemoveOldest_exact c kv hs hp hmax (by rw [hll]; exact g1)
      rw [hd] at r1 r2 r3
      simp only [Cache.RemoveOldest, hll, g1, g2]
      exact ih
        { c with
          ll := e :: front
          nbytes := i64 (c.nbytes
            - i64 ((kv.key.utf8ByteSize : Int) + i64 (Value.Len kv.value)))
          evictions := if c.OnEvicted then c.evictions ++ [(kv.key, kv.value)]
            else c.evictions }
        front rfl r1 r3 (by simp only [r1]; omega) hpos hbig
        (by simp only [List.length_append, List.length_singleton] at hf; omega)

/-- C18. Get after Add: on a store reached from `New` by `Add` and `Get`
calls, when the budget is 0 or the entry fits the budget by itself, with the
length of the value taken as the code takes it, `int64(v.Len())`, the call
`Add(k, v)` returns, the `Get(k)` that follows returns `(v, true)`, and the
store holds exactly one entry for `k`, whether `k` was stored before or not. -/
theorem get_after_add {V : Type} [Value V] (maxBytes : Int) (onEvicted : Bool)
    (ops : List (Op V)) (c : Cache V) (k : String) (v : V)
    (hrun : (New maxBytes onEvicted).run ops = .ret c)
    (hfit : maxBytes = 0 ∨ (k.utf8ByteSize : Int) + i64 (Value.Len v) ≤ maxBytes) :
    ∃ c1, c.Add k v = .ret c1 ∧ (c1.Get k).2 = some v
      ∧ (c1.ll.filter (fun e => decide (e.key = k))).length = 1 := by
  obtain ⟨hs, hm⟩ := run_inv ops (New maxBytes onEvicted) c hrun (New_sound maxBytes onEvicted)
  have hm2 : c.maxBytes = maxBytes := hm
  have hd := run_keys_distinct maxBytes onEvicted ops c hrun
  obtain ⟨h1, h2⟩ := insert_sound c k v hs
  obtain ⟨rest, hrest, hno⟩ := insert_front c k v
  have hfit2 : (c.insert k v).maxBytes = 0
      ∨ i64 (entry.mk k v).size ≤ (c.insert k v).maxBytes := by
    rw [h2, hm2]
    rcases hfit with h0 | hle
    · exact Or.inl h0
    · right
      simp only [entry.size]
      unfold i64 at hle ⊢
      omega
  obtain ⟨c1, rest1, ev, e1, l1, r1⟩ := evict_keeps_front
    ((c.insert k v).ll.length + 1) (c.insert k v) _ rest hrest h1
    hfit2 (by rw [hrest]; simp only [List.length_cons]; omega)
  refine ⟨c1, e1, ?_, ?_⟩
  · simp [Cache.Get, Cache.lookup, l1]
  · have hno1 : ∀ x ∈ rest1, x.key ≠ k := by
      intro x hx
      exact hno hd x (by rw [r1]; exact List.mem_append_left _ hx)
    rw [l1, List.filter_cons]
    simp only [decide_True, if_true, List.length_cons]
    rw [List.filter_eq_nil_iff.mpr]
    · rfl
    · intro x hx
      simpa using hno1 x hx

/-- C19 (as amended). Oversized entry flushes the store: on a store reached
from `New` with a positive budget by `Get` calls and by `Add` calls of values
of non-negative length whose entry, added to the budget, stays within `int64`,
an `Add(k, v)` of such a value whose entry alone exceeds the budget returns and
leaves the store empty with `nbytes = 0`, so the `Get(k)` that follows reports
not found. -/
theorem oversized_add_flushes {V : Type} [Value V] (maxBytes : Int) (onEvicted : Bool)
    (ops : List (Op V)) (c : Cache V) (k : String) (v : V)
    (hpos : 0 < maxBytes) (hb : ∀ op ∈ ops, op.bounded maxBytes)
    (hrun : (New maxBytes onEvicted).run ops = .ret c)
    (hv : (Op.add k v).bounded maxBytes)
    (hbig : maxBytes < (k.utf8ByteSize : Int) + Value.Len v) :
    ∃ c1, c.Add k v = .ret c1 ∧ c1.ll = [] ∧ c1.nbytes = 0 ∧ (c1.Get k).2 = none := by
  obtain ⟨c0, hc0, hw⟩ := run_within maxBytes hpos ops hb (New maxBytes onEvicted)
    (New_within maxBytes onEvicted hpos)
  rw [hrun] at hc0
  cases hc0
  obtain ⟨hm, hs, hle, hp⟩ := hw
  obtain ⟨hv1, hv2⟩ := hv
  obtain ⟨i1, i2, i3, i4⟩ := insert_exact c k v hs hp hv1 (by omega)
  obtain ⟨rest, hrest, _⟩ := insert_front c k v
  obtain ⟨c1, e1, l1, n1, _⟩ := evict_flushes
    ((c.insert k v).ll.length + 1) (c.insert k v) _ rest hrest i1 i2 (by omega)
    (by rw [i4, hm]; exact hpos) (by rw [i4, hm]; exact hbig)
    (by rw [hrest]; simp only [List.length_cons]; omega)
  exact ⟨c1, e1, l1, n1, by simp [Cache.Get, Cache.lookup, l1]⟩

end lru

/-- Witness for C1: a budget of 4 bytes and four calls of one-byte keys and
values, the last of which evicts "b"; the store ends with "c" and "a" stored
and a stored sum of 4. -/
theorem lru.eviction_bound_witness :
    (0 : Int) < 4
    ∧ (∀ op ∈ ([.add "a" ⟨[1]⟩, .add "b" ⟨[2]⟩, .get "a", .add "c" ⟨[3]⟩] :
          List (lru.Op cache.ByteView)), op.bounded 4)
    ∧ (∃ c, (lru.New 4 false : lru.Cache cache.ByteView).run
          [.add "a" ⟨[1]⟩, .add "b" ⟨[2]⟩, .get "a", .add "c" ⟨[3]⟩] = .ret c
        ∧ lru.storedBytes c.ll ≤ 4)
    ∧ (lru.New 4 false : lru.Cache cache.ByteView).run
          [.add "a" ⟨[1]⟩, .add "b" ⟨[2]⟩, .get "a", .add "c" ⟨[3]⟩]
        = .ret { maxBytes := 4, nbytes := 4, ll := [⟨"c", ⟨[3]⟩⟩, ⟨"a", ⟨[1]⟩⟩]
                 OnEvicted := false, evictions := [] } :=
  ⟨by decide, by decide, lru.eviction_bound 4 false (by decide) _ (by decide), by decide⟩

/-- Counterexample for C1 as stated: on the store built by `New` with budget 4,
`Add("a", v)` with `v.Len() = math.MaxInt64` returns with the counter wrapped to
`math.MinInt64`, so nothing is evicted and the stored sum, `2^63`, exceeds the
budget. -/
theorem lru.eviction_bound_counterexample :
    (0 : Int) < 4
    ∧ (lru.New 4 false : lru.Cache lru.Sized).run [.add "a" ⟨9223372036854775807⟩]
        = .ret { maxBytes := 4, nbytes := -9223372036854775808
                 ll := [⟨"a", ⟨9223372036854775807⟩⟩]
                 OnEvicted := false, evictions := [] }
    ∧ lru.storedBytes [(⟨"a", ⟨9223372036854775807⟩⟩ : lru.entry lru.Sized)]
        = 9223372036854775808
    ∧ ¬ lru.storedBytes [(⟨"a", ⟨9223372036854775807⟩⟩ : lru.entry lru.Sized)] ≤ 4 := by
  decide

/-- Witness for C2: with budget 4 and one-byte keys and values, the `Add` of
"c" after Add "a", Add "b", Get "a" evicts "b", which was used before "a". -/
theorem lru.eviction_order_witness :
    lru.Timed.lastUse
        (Outcome.getD (lru.Timed.step
          (Outcome.getD ((lru.Timed.New 4 true : lru.Timed cache.ByteView).run
            [.add "a" ⟨[1]⟩, .add "b" ⟨[2]⟩, .get "a"]) (lru.Timed.New 4 true))
          (.add "c" ⟨[3]⟩)) (lru.Timed.New 4 true)) "b"
      < lru.Timed.lastUse
        (Outcome.getD (lru.Timed.step
          (Outcome.getD ((lru.Timed.New 4 true : lru.Timed cache.ByteView).run
            [.add "a" ⟨[1]⟩, .add "b" ⟨[2]⟩, .get "a"]) (lru.Timed.New 4 true))
          (.add "c" ⟨[3]⟩)) (lru.Timed.New 4 true)) "a"
    ∧ ∃ c, (lru.New 4 true : lru.Cache cache.ByteView).run
          [.add "a" ⟨[1]⟩, .add "b" ⟨[2]⟩, .get "a", .add "c" ⟨[3]⟩] = .ret c
        ∧ c.ll = [⟨"c", ⟨[3]⟩⟩, ⟨"a", ⟨[1]⟩⟩]
        ∧ c.stores "a" ∧ c.stores "c" ∧ ¬ c.stores "b" :=
  ⟨(@lru.eviction_order cache.ByteView _).1 4 true
      [.add "a" ⟨[1]⟩, .add "b" ⟨[2]⟩, .get "a"]
      (Outcome.getD ((lru.Timed.New 4 true : lru.Timed cache.ByteView).run
        [.add "a" ⟨[1]⟩, .add "b" ⟨[2]⟩, .get "a"]) (lru.Timed.New 4 true))
      (Outcome.getD (lru.Timed.step
        (Outcome.getD ((lru.Timed.New 4 true : lru.Timed cache.ByteView).run
          [.add "a" ⟨[1]⟩, .add "b" ⟨[2]⟩, .get "a"]) (lru.Timed.New 4 true))
        (.add "c" ⟨[3]⟩)) (lru.Timed.New 4 true))
      "c" ⟨[3]⟩ rfl rfl "b" "a" (by decide) (by decide) (by decide),
   (@lru.eviction_order cache.ByteView _).2 true "a" "b" "c" ⟨[1]⟩ ⟨[2]⟩ ⟨[3]⟩
      (by decide) (by decide) (by decide) (by decide) (by decide) (by decide)
      (by decide) (by decide) (by decide)⟩

/-- Counterexample for C2 as stated, in two instances.  With budget 4 exactly
holding A = ("a", 1 byte) and B = ("b", 1 byte), the entry C with the empty key
and no bytes is no larger than B, yet after Add A, Add B, Get A, Add C the
entry B is still stored: nothing is evicted.  With budget `math.MaxInt64`
exactly holding A = ("a", length `2^62`) and B = ("b", length `2^62 - 3`), the
entry C = ("c", length 1) has positive size no larger than B, yet the `Add` of
C wraps the counter to a negative value and B is still stored. -/
theorem lru.eviction_order_counterexample :
    (((4 : Int) = (lru.entry.mk "a" (⟨[1]⟩ : cache.ByteView)).size
        + (lru.entry.mk "b" (⟨[2]⟩ : cache.ByteView)).size)
      ∧ (lru.entry.mk "" (⟨[]⟩ : cache.ByteView)).size
          ≤ (lru.entry.mk "b" (⟨[2]⟩ : cache.ByteView)).size
      ∧ (lru.New 4 false : lru.Cache cache.ByteView).run
          [.add "a" ⟨[1]⟩, .add "b" ⟨[2]⟩, .get "a", .add "" ⟨[]⟩]
        = .ret { maxBytes := 4, nbytes := 4
                 ll := [⟨"", ⟨[]⟩⟩, ⟨"a", ⟨[1]⟩⟩, ⟨"b", ⟨[2]⟩⟩]
                 OnEvicted := false, evictions := [] }
      ∧ (lru.Cache.stores
          ({ maxBytes := 4, nbytes := 4
             ll := [⟨"", ⟨[]⟩⟩, ⟨"a", ⟨[1]⟩⟩, ⟨"b", ⟨[2]⟩⟩]
             OnEvicted := false, evictions := [] } : lru.Cache cache.ByteView) "b"))
    ∧ (((9223372036854775807 : Int)
          = (lru.entry.mk "a" (⟨4611686018427387904⟩ : lru.Sized)).size
            + (lru.entry.mk "b" (⟨4611686018427387901⟩ : lru.Sized)).size)
      ∧ 0 < (lru.entry.mk "c" (⟨1⟩ : lru.Sized)).size
      ∧ (lru.entry.mk "c" (⟨1⟩ : lru.Sized)).size
          ≤ (lru.entry.mk "b" (⟨4611686018427387901⟩ : lru.Sized)).size
      ∧ (lru.New 9223372036854775807 false : lru.Cache lru.Sized).run
          [.add "a" ⟨4611686018427387904⟩, .add "b" ⟨4611686018427387901⟩, .get "a",
           .add "c" ⟨1⟩]
        = .ret { maxBytes := 9223372036854775807, nbytes := -9223372036854775807
                 ll := [⟨"c", ⟨1⟩⟩, ⟨"a", ⟨4611686018427387904⟩⟩,
                        ⟨"b", ⟨4611686018427387901⟩⟩]
                 OnEvicted := false, evictions := [] }
      ∧ (lru.Cache.stores
          ({ maxBytes := 9223372036854775807, nbytes := -9223372036854775807
             ll := [⟨"c", ⟨1⟩⟩, ⟨"a", ⟨4611686018427387904⟩⟩,
                    ⟨"b", ⟨4611686018427387901⟩⟩]
             OnEvicted := false, evictions := [] } : lru.Cache lru.Sized) "b")) := by
  decide

/-- Witness for C14: a budget of 4 bytes and four calls, the last of which
evicts "b"; on the store so reached, `Add("d", v)` with a one-byte value calls
`RemoveOldest` once, on the store that holds "d", "c" and "a". -/
theorem lru.no_eviction_from_empty_witness :
    (0 : Int) ≤ 4
    ∧ (∃ c, (lru.New 4 false : lru.Cache cache.ByteView).run
          [.add "a" ⟨[1]⟩, .add "b" ⟨[2]⟩, .get "a", .add "c" ⟨[3]⟩] = .ret c
        ∧ ∀ (key : String) (value : cache.ByteView),
            (∀ c1 ∈ c.removeCalls key value, c1.ll ≠ [])
            ∧ ∃ c2, c.Add key value = .ret c2)
    ∧ (lru.New 4 false : lru.Cache cache.ByteView).run
          [.add "a" ⟨[1]⟩, .add "b" ⟨[2]⟩, .get "a", .add "c" ⟨[3]⟩]
        = .ret { maxBytes := 4, nbytes := 4, ll := [⟨"c", ⟨[3]⟩⟩, ⟨"a", ⟨[1]⟩⟩]
                 OnEvicted := false, evictions := [] }
    ∧ lru.Cache.removeCalls
          ({ maxBytes := 4, nbytes := 4, ll := [⟨"c", ⟨[3]⟩⟩, ⟨"a", ⟨[1]⟩⟩]
             OnEvicted := false, evictions := [] } : lru.Cache cache.ByteView) "d" ⟨[4]⟩
        = [{ maxBytes := 4, nbytes := 6
             ll := [⟨"d", ⟨[4]⟩⟩, ⟨"c", ⟨[3]⟩⟩, ⟨"a", ⟨[1]⟩⟩]
             OnEvicted := false, evictions := [] }] :=
  ⟨by decide, lru.no_eviction_from_empty 4 false (by decide) _, by decide, by decide⟩

/-- Counterexample for C14 as stated: on the store built by `New` with budget
-1, `Add("a", v)` with a one-byte value first evicts the new entry and then
calls `RemoveOldest` on the empty store, which panics. -/
theorem lru.no_eviction_from_empty_counterexample :
    (∃ c1 ∈ (lru.New (-1) false : lru.Cache cache.ByteView).removeCalls "a" ⟨[1]⟩, c1.ll = [])
    ∧ (lru.New (-1) false : lru.Cache cache.ByteView).Add "a" ⟨[1]⟩ = .panic nilDeref := by
  decide

/-- Witness for C18: with budget 4 and "b", "a" stored, "a" is added again
with another value; `Get("a")` returns the new value and one entry is stored. -/
theorem lru.get_after_add_witness :
    ∃ c1, lru.Cache.Add
        ({ maxBytes := 4, nbytes := 4, ll := [⟨"b", ⟨[2]⟩⟩, ⟨"a", ⟨[1]⟩⟩]
           OnEvicted := false, evictions := [] } : lru.Cache cache.ByteView)
        "a" ⟨[7, 8]⟩ = .ret c1
      ∧ (c1.Get "a").2 = some ⟨[7, 8]⟩
      ∧ (c1.ll.filter (fun e => decide (e.key = "a"))).length = 1 :=
  @lru.get_after_add cache.ByteView _ 4 false [.add "a" ⟨[1]⟩, .add "b" ⟨[2]⟩]
    { maxBytes := 4, nbytes := 4, ll := [⟨"b", ⟨[2]⟩⟩, ⟨"a", ⟨[1]⟩⟩]
      OnEvicted := false, evictions := [] }
    "a" ⟨[7, 8]⟩ (by decide) (Or.inr (by decide))

/-- Witness for C19: with budget 4 and two one-byte entries stored, adding a
five-byte value under key "c" empties the store. -/
theorem lru.oversized_add_flushes_witness :
    ∃ c1, lru.Cache.Add
        ({ maxBytes := 4, nbytes := 4, ll := [⟨"b", ⟨[2]⟩⟩, ⟨"a", ⟨[1]⟩⟩]
           OnEvicted := false, evictions := [] } : lru.Cache cache.ByteView)
        "c" ⟨[1, 2, 3, 4, 5]⟩ = .ret c1
      ∧ c1.ll = [] ∧ c1.nbytes = 0 ∧ (c1.Get "c").2 = none :=
  @lru.oversized_add_flushes cache.ByteView _ 4 false [.add "a" ⟨[1]⟩, .add "b" ⟨[2]⟩]
    { maxBytes := 4, nbytes := 4, ll := [⟨"b", ⟨[2]⟩⟩, ⟨"a", ⟨[1]⟩⟩]
      OnEvicted := false, evictions := [] }
    "c" ⟨[1, 2, 3, 4, 5]⟩ (by decide) (by decide) (by decide) (by decide) (by decide)

/-- Counterexample for C19 as stated, in two instances under budget 4.  With
"b" stored, `Add("a", v)` with `v.Len() = math.MaxInt64 - 2` wraps the counter
to `math.MinInt64`: nothing is evicted and `Get("a")` finds the value.  With an
entry "n" of length -10 stored, `Add("a", v)` with `v.Len() = 7`, an entry of 8
bytes, leaves the counter at -1: nothing is evicted and `Get("a")` finds the
value. -/
theorem lru.oversized_add_flushes_counterexample :
    ((lru.New 4 false : lru.Cache lru.Sized).run [.add "b" ⟨1⟩]
        = .ret { maxBytes := 4, nbytes := 2, ll := [⟨"b", ⟨1⟩⟩]
                 OnEvicted := false, evictions := [] }
      ∧ (4 : Int) < (("a".utf8ByteSize : Nat) : Int)
          + lru.Value.Len (⟨9223372036854775805⟩ : lru.Sized)
      ∧ lru.Cache.Add
          ({ maxBytes := 4, nbytes := 2, ll := [⟨"b", ⟨1⟩⟩]
             OnEvicted := false, evictions := [] } : lru.Cache lru.Sized)
          "a" ⟨9223372036854775805⟩
        = .ret { maxBytes := 4, nbytes := -9223372036854775808
                 ll := [⟨"a", ⟨9223372036854775805⟩⟩, ⟨"b", ⟨1⟩⟩]
                 OnEvicted := false, evictions := [] }
      ∧ (lru.Cache.Get
          ({ maxBytes := 4, nbytes := -9223372036854775808
             ll := [⟨"a", ⟨9223372036854775805⟩⟩, ⟨"b", ⟨1⟩⟩]
             OnEvicted := false, evictions := [] } : lru.Cache lru.Sized) "a").2
        = some ⟨9223372036854775805⟩)
    ∧ ((lru.New 4 false : lru.Cache lru.Sized).run [.add "n" ⟨-10⟩]
        = .ret { maxBytes := 4, nbytes := -9, ll := [⟨"n", ⟨-10⟩⟩]
                 OnEvicted := false, evictions := [] }
      ∧ (4 : Int) < (("a".utf8ByteSize : Nat) : Int) + lru.Value.Len (⟨7⟩ : lru.Sized)
      ∧ lru.Cache.Add
          ({ maxBytes := 4, nbytes := -9, ll := [⟨"n", ⟨-10⟩⟩]
             OnEvicted := false, evictions := [] } : lru.Cache lru.Sized)
          "a" ⟨7⟩
        = .ret { maxBytes := 4, nbytes := -1
                 ll := [⟨"a", ⟨7⟩⟩, ⟨"n", ⟨-10⟩⟩]
                 OnEvicted := false, evictions := [] }
      ∧ (lru.Cache.Get
          ({ maxBytes := 4, nbytes := -1
             ll := [⟨"a", ⟨7⟩⟩, ⟨"n", ⟨-10⟩⟩]
             OnEvicted := false, evictions := [] } : lru.Cache lru.Sized) "a").2
        = some ⟨7⟩) := by
  decide
namespace consistenhash

/-- Binary search invariant. -/
theorem searchLoop_spec (f : Nat → Bool) (n : Nat)
    (mono : ∀ a b, a ≤ b → b < n → f a = true → f b = true) :
    ∀ fuel i j, i ≤ j → j ≤ n → j - i ≤ fuel →
      (∀ a, a < i → f a = false) → (∀ a, j ≤ a → a < n → f a = true) →
      searchLoop f fuel i j ≤ n
        ∧ (∀ a, a < searchLoop f fuel i j → f a = false)
        ∧ (∀ a, searchLoop f fuel i j ≤ a → a < n → f a = true) := by
  intro fuel
  induction fuel with
  | zero =>
    intro i j hij hjn hf hlo hhi
    have : i = j := by omega
    subst this
    exact ⟨hjn, hlo, hhi⟩
  | succ fuel ih =>
    intro i j hij hjn hf hlo hhi
    unfold searchLoop
    by_cases hlt : i < j
    · rw [if_pos hlt]
      have hmid1 : i ≤ (i + j) / 2 := by omega
      have hmid2 : (i + j) / 2 < j := by omega
      cases hfm : f ((i + j) / 2) with
      | false =>
        simp only [Bool.not_false, if_true]
        apply ih _ _ (by omega) hjn (by omega) _ hhi
        intro a ha
        cases hfa : f a with
        | false => rfl
        | true =>
          have := mono a ((i + j) / 2) (by omega) (by omega) hfa
          rw [hfm] at this
          cases this
      | true =>
        simp only [Bool.not_true, Bool.false_eq_true, if_false]
        apply ih _ _ (by omega) (by omega) (by omega) hlo
        intro a ha han
        exact mono _ a ha han hfm
    · rw [if_neg hlt]
      have : i = j := by omega
      subst this
      exact ⟨hjn, hlo, hhi⟩

theorem Search_spec (f : Nat → Bool) (n : Nat)
    (mono : ∀ a b, a ≤ b → b < n → f a = true → f b = true) :
    Search n f ≤ n ∧ (∀ a, a < Search n f → f a = false)
      ∧ (∀ a, Search n f ≤ a → a < n → f a = true) :=
  searchLoop_spec f n mono n 0 n (Nat.zero_le _) (Nat.le_refl _) (by omega)
    (fun a ha => absurd ha (Nat.not_lt_zero _)) (fun a h1 h2 => absurd h2 (by omega))


theorem sorted_getD_le (ks : List Int) (hs : ks.Sorted (· ≤ ·)) (a b : Nat)
    (hab : a ≤ b) (hb : b < ks.length) : ks.getD a 0 ≤ ks.getD b 0 := by
  rw [List.getD_eq_getElem ks 0 (by omega : a < ks.length), List.getD_eq_getElem ks 0 hb]
  rcases Nat.eq_or_lt_of_le hab with rfl | hlt
  · exact le_refl _
  · exact List.pairwise_iff_getElem.mp hs a b (by omega) hb hlt

/-- On a sorted ring `Get` reads the table at a ring position `v0` which is
the least hash at or after the hash of the key, or the least hash of all when
no hash is at or after it. -/
theorem Get_sorted (m : Map) (key : String) (hs : m.keys.Sorted (· ≤ ·)) (hne : m.keys ≠ []) :
    ∃ v0 ∈ m.keys, m.Get key = (GoMap.get m.hashMap v0).getD ""
      ∧ ((∃ w ∈ m.keys, m.hashInt key ≤ w) →
          m.hashInt key ≤ v0 ∧ ∀ w ∈ m.keys, m.hashInt key ≤ w → v0 ≤ w)
      ∧ ((∀ w ∈ m.keys, w < m.hashInt key) → ∀ w ∈ m.keys, v0 ≤ w) := by
  have hn : 0 < m.keys.length := List.length_pos.mpr hne
  have mono : ∀ a b, a ≤ b → b < m.keys.length →
      (fun i => decide (m.keys.getD i 0 ≥ m.hashInt key)) a = true →
      (fun i => decide (m.keys.getD i 0 ≥ m.hashInt key)) b = true := by
    intro a b hab hb ha
    simp only [ge_iff_le, decide_eq_true_eq] at ha ⊢
    exact le_trans ha (sorted_getD_le m.keys hs a b hab hb)
  obtain ⟨hr1, hr2, hr3⟩ := Search_spec _ m.keys.length mono
  generalize hr : Search m.keys.length (fun i => decide (m.keys.getD i 0 ≥ m.hashInt key)) = r
    at hr1 hr2 hr3
  have hmod : r % m.keys.length < m.keys.length := Nat.mod_lt _ hn
  refine ⟨m.keys.getD (r % m.keys.length) 0, ?_, ?_, ?_, ?_⟩
  · rw [List.getD_eq_getElem m.keys 0 hmod]
    exact List.getElem_mem hmod
  · unfold Map.Get
    rw [if_neg (by omega), hr]
  · rintro ⟨w, hw, hhw⟩
    obtain ⟨a, ha, rfl⟩ := List.mem_iff_getElem.mp hw
    have hfa : m.keys.getD a 0 ≥ m.hashInt key := by
      rw [List.getD_eq_getElem m.keys 0 ha]
      exact hhw
    have hra : r ≤ a := by
      by_contra hlt
      have := hr2 a (by omega)
      simp only [ge_iff_le, decide_eq_false_iff_not] at this
      exact this hfa
    have hrn : r < m.keys.length := by omega
    rw [Nat.mod_eq_of_lt hrn]
    constructor
    · have := hr3 r (le_refl _) hrn
      simpa using this
    · intro w2 hw2 hh2
      obtain ⟨b, hb, rfl⟩ := List.mem_iff_getElem.mp hw2
      have hrb : r ≤ b := by
        by_contra hlt
        have := hr2 b (by omega)
        simp only [ge_iff_le, decide_eq_false_iff_not] at this
        apply this
        rw [List.getD_eq_getElem m.keys 0 hb]
        exact hh2
      have := sorted_getD_le m.keys hs r b hrb hb
      rwa [List.getD_eq_getElem m.keys 0 hb] at this
  · intro hall w hw
    obtain ⟨a, ha, rfl⟩ := List.mem_iff_getElem.mp hw
    have hrn : r = m.keys.length := by
      by_contra hne2
      have hlt : r < m.keys.length := by omega
      have := hr3 r (le_refl _) hlt
      simp only [ge_iff_le, decide_eq_true_eq] at this
      rw [List.getD_eq_getElem m.keys 0 hlt] at this
      have := hall _ (List.getElem_mem hlt)
      omega
    rw [hrn, Nat.mod_self]
    have := sorted_getD_le m.keys hs 0 a (Nat.zero_le _) ha
    rwa [List.getD_eq_getElem m.keys 0 ha] at this


/-! ### The ring after `Add` -/

theorem hashInt_congr (m1 m2 : Map) (h : m1.hash = m2.hash) (s : String) :
    m1.hashInt s = m2.hashInt s := by
  simp [Map.hashInt, h]

theorem virtualNodes_congr (m1 m2 : Map) (h : m1.hash = m2.hash)
    (hr : m1.replicas = m2.replicas) (nodes : List String) :
    m1.virtualNodes nodes = m2.virtualNodes nodes := by
  simp [Map.virtualNodes, Map.hashInt, h, hr]

theorem foldl_addReplica (n : String) (l : List Nat) (m : Map) :
    (l.foldl (Map.addReplica n) m).hash = m.hash
      ∧ (l.foldl (Map.addReplica n) m).replicas = m.replicas
      ∧ (l.foldl (Map.addReplica n) m).keys
          = m.keys ++ l.map (fun i => m.hashInt (toString i ++ n))
      ∧ (l.foldl (Map.addReplica n) m).hashMap
          = setAll m.hashMap (l.map (fun i => (m.hashInt (toString i ++ n), n))) := by
  induction l generalizing m with
  | nil => simp [setAll]
  | cons i l ih =>
    obtain ⟨h1, h2, h3, h4⟩ := ih (Map.addReplica n m i)
    have hh : (Map.addReplica n m i).hash = m.hash := rfl
    have hc : ∀ s, (Map.addReplica n m i).hashInt s = m.hashInt s :=
      hashInt_congr _ _ hh
    simp only [List.foldl_cons, List.map_cons]
    refine ⟨h1.trans hh, h2, ?_, ?_⟩
    · rw [h3]
      simp only [hc]
      simp [Map.addReplica]
    · rw [h4]
      simp only [hc]
      simp [Map.addReplica, setAll]

theorem foldl_addKey (nodes : List String) (m : Map) :
    (nodes.foldl Map.addKey m).hash = m.hash
      ∧ (nodes.foldl Map.addKey m).replicas = m.replicas
      ∧ (nodes.foldl Map.addKey m).keys = m.keys ++ (m.virtualNodes nodes).map Prod.fst
      ∧ (nodes.foldl Map.addKey m).hashMap = setAll m.hashMap (m.virtualNodes nodes) := by
  induction nodes generalizing m with
  | nil => simp [setAll, Map.virtualNodes]
  | cons n nodes ih =>
    obtain ⟨a1, a2, a3, a4⟩ := foldl_addReplica n (List.range m.replicas.toNat) m
    obtain ⟨h1, h2, h3, h4⟩ := ih (m.addKey n)
    have hv := virtualNodes_congr (m.addKey n) m a1 a2 nodes
    have hsplit : m.virtualNodes (n :: nodes)
        = (List.range m.replicas.toNat).map (fun i => (m.hashInt (toString i ++ n), n))
          ++ m.virtualNodes nodes := by
      simp [Map.virtualNodes]
    simp only [List.foldl_cons]
    refine ⟨h1.trans a1, h2.trans a2, ?_, ?_⟩
    · rw [h3, hv, hsplit]
      simp only [Map.addKey, a3, List.map_append, List.map_map, List.append_assoc]
      rfl
    · rw [h4, hv, hsplit]
      simp only [Map.addKey, a4, setAll, List.foldl_append]

theorem Add_spec (m : Map) (nodes : List String) :
    (m.Add nodes).hash = m.hash ∧ (m.Add nodes).replicas = m.replicas
      ∧ (m.Add nodes).keys.Sorted (· ≤ ·)
      ∧ (m.Add nodes).keys.Perm (m.keys ++ (m.virtualNodes nodes).map Prod.fst)
      ∧ (m.Add nodes).hashMap = setAll m.hashMap (m.virtualNodes nodes) := by
  obtain ⟨h1, h2, h3, h4⟩ := foldl_addKey nodes m
  refine ⟨h1, h2, ?_, ?_, h4⟩
  · exact List.sorted_insertionSort _ _
  · simp only [Map.Add]
    rw [← h3]
    exact List.perm_insertionSort _ _

theorem foldl_Add (batches : List (List String)) (m : Map) (hs : m.keys.Sorted (· ≤ ·)) :
    (batches.foldl Map.Add m).hash = m.hash
      ∧ (batches.foldl Map.Add m).replicas = m.replicas
      ∧ (batches.foldl Map.Add m).keys.Sorted (· ≤ ·)
      ∧ (batches.foldl Map.Add m).keys.Perm
          (m.keys ++ (m.virtualNodes batches.flatten).map Prod.fst)
      ∧ (batches.foldl Map.Add m).hashMap = setAll m.hashMap (m.virtualNodes batches.flatten) := by
  induction batches generalizing m with
  | nil => simp [setAll, Map.virtualNodes, hs]
  | cons b bs ih =>
    obtain ⟨a1, a2, a3, a4, a5⟩ := Add_spec m b
    obtain ⟨h1, h2, h3, h4, h5⟩ := ih (m.Add b) a3
    have hv := virtualNodes_congr (m.Add b) m a1 a2 bs.flatten
    have hsplit : m.virtualNodes (b :: bs).flatten
        = m.virtualNodes b ++ m.virtualNodes bs.flatten := by
      simp [Map.virtualNodes]
    simp only [List.foldl_cons]
    refine ⟨h1.trans a1, h2.trans a2, h3, ?_, ?_⟩
    · rw [hsplit, List.map_append, ← List.append_assoc]
      rw [hv] at h4
      exact h4.trans (List.Perm.append_right _ a4)
    · rw [h5, hv, hsplit, a5]
      simp only [setAll, List.foldl_append]

/-- The state of a ring built by `New` and `Add` calls. -/
theorem ring_spec (replicas : Int) (fn : Option Hash) (batches : List (List String)) :
    (ring replicas fn batches).hash = (New replicas fn).hash
      ∧ (ring replicas fn batches).keys.Sorted (· ≤ ·)
      ∧ (ring replicas fn batches).keys.Perm
          (((New replicas fn).virtualNodes batches.flatten).map Prod.fst)
      ∧ (ring replicas fn batches).hashMap
          = setAll [] ((New replicas fn).virtualNodes batches.flatten) := by
  obtain ⟨h1, _, h3, h4, h5⟩ := foldl_Add batches (New replicas fn) (by simp [New])
  exact ⟨h1, h3, by simpa [New] using h4, h5⟩


/-! ### The table of virtual nodes -/

theorem find?_filter_ne (hm : GoMap Int String) (k v : Int) (h : k ≠ v) :
    (hm.filter (fun p => !decide (p.1 = k))).find? (fun p => decide (p.1 = v))
      = hm.find? (fun p => decide (p.1 = v)) := by
  induction hm with
  | nil => rfl
  | cons p hm ih =>
    by_cases hp : p.1 = k
    · have hpv : ¬ p.1 = v := by rw [hp]; exact h
      rw [List.filter_cons, List.find?_cons]
      simp only [hp, decide_True, Bool.not_true, Bool.false_eq_true, if_false, h,
        decide_False]
      exact ih
    · rw [List.filter_cons]
      simp only [hp, decide_False, Bool.not_false, if_true]
      rw [List.find?_cons, List.find?_cons, ih]

theorem get_set (hm : GoMap Int String) (k v : Int) (n : String) :
    GoMap.get (GoMap.set hm k n) v = if k = v then some n else GoMap.get hm v := by
  by_cases h : k = v
  · simp [GoMap.get, GoMap.set, h]
  · simp only [GoMap.get, GoMap.set, GoMap.delete, if_neg h]
    rw [List.find?_cons]
    simp only [h, decide_False]
    rw [find?_filter_ne hm k v h]

theorem setAll_concat (hm : GoMap Int String) (ps : List (Int × String)) (p : Int × String) :
    setAll hm (ps ++ [p]) = GoMap.set (setAll hm ps) p.1 p.2 := by
  simp [setAll, List.foldl_append]

/-- A hash that some virtual node was recorded under reads back as the node
of one of the virtual nodes with that hash. -/
theorem get_setAll (hm : GoMap Int String) (ps : List (Int × String)) (v : Int)
    (h : ∃ n, (v, n) ∈ ps) :
    ∃ n, GoMap.get (setAll hm ps) v = some n ∧ (v, n) ∈ ps := by
  induction ps using List.reverseRecOn with
  | nil => simp at h
  | append_singleton ps p ih =>
    rw [setAll_concat, get_set]
    by_cases hp : p.1 = v
    · refine ⟨p.2, by simp [hp], ?_⟩
      rw [← hp]
      simp
    · obtain ⟨n, hn⟩ := h
      have hn2 : (v, n) ∈ ps := by
        rcases List.mem_append.mp hn with h1 | h1
        · exact h1
        · simp only [List.mem_singleton] at h1
          rw [← h1] at hp
          exact absurd rfl hp
      obtain ⟨n2, e2, m2⟩ := ih ⟨n, hn2⟩
      exact ⟨n2, by simp [hp, e2], List.mem_append_left _ m2⟩

/-- Without hash collisions the table lists the virtual nodes, latest first. -/
theorem setAll_nodup (ps : List (Int × String)) (h : (ps.map Prod.fst).Nodup) :
    setAll [] ps = ps.reverse := by
  induction ps using List.reverseRecOn with
  | nil => rfl
  | append_singleton ps p ih =>
    rw [List.map_append, List.nodup_append] at h
    obtain ⟨h1, _, h3⟩ := h
    rw [setAll_concat, ih h1, List.reverse_append]
    simp only [GoMap.set, GoMap.delete, List.reverse_cons, List.reverse_nil, List.nil_append,
      List.singleton_append, List.cons.injEq, true_and]
    rw [List.filter_eq_self]
    intro q hq
    simp only [Bool.not_eq_true', decide_eq_false_iff_not]
    intro hqp
    exact h3 (List.mem_map.mpr ⟨q, List.mem_reverse.mp hq, hqp⟩) (by simp)

theorem mem_virtualNodes (replicas : Int) (fn : Option Hash) (nodes : List String)
    (v : Int) (n : String) :
    (v, n) ∈ (New replicas fn).virtualNodes nodes
      ↔ n ∈ nodes ∧ ∃ i, i < replicas.toNat ∧ virtualHash fn i n = v := by
  simp only [Map.virtualNodes, List.mem_flatMap, List.mem_map, List.mem_range, Prod.mk.injEq]
  constructor
  · rintro ⟨a, ha, i, hi, hv, rfl⟩
    exact ⟨ha, i, hi, hv⟩
  · rintro ⟨hn, i, hi, hv⟩
    exact ⟨n, hn, i, hi, hv, rfl⟩


theorem mem_keys_ring (replicas : Int) (fn : Option Hash) (batches : List (List String))
    (v : Int) (hv : v ∈ (ring replicas fn batches).keys) :
    ∃ n, (v, n) ∈ (New replicas fn).virtualNodes batches.flatten := by
  obtain ⟨_, _, hp, _⟩ := ring_spec replicas fn batches
  obtain ⟨p, hp1, hp2⟩ := List.mem_map.mp (hp.subset hv)
  exact ⟨p.2, by rw [← hp2]; exact hp1⟩

/-- C3. Ring lookup: on a ring built by `New` and `Add` calls the list of
virtual-node hashes is sorted; `Get` returns "" when it is empty, and otherwise
returns the node recorded for a hash `v` of the list that is the smallest one
at or after the hash of the key, or the smallest of all when the hash of the
key is larger than every hash of the list. -/
theorem ring_lookup (replicas : Int) (fn : Option Hash) (batches : List (List String))
    (key : String) :
    (ring replicas fn batches).keys.Sorted (· ≤ ·)
    ∧ ((ring replicas fn batches).keys = [] → (ring replicas fn batches).Get key = "")
    ∧ ((ring replicas fn batches).keys ≠ [] →
        ∃ v ∈ (ring replicas fn batches).keys, ∃ node ∈ batches.flatten,
          GoMap.get (ring replicas fn batches).hashMap v = some node
          ∧ (ring replicas fn batches).Get key = node
          ∧ (((ring replicas fn batches).hashInt key ≤ v
                ∧ ∀ w ∈ (ring replicas fn batches).keys,
                    (ring replicas fn batches).hashInt key ≤ w → v ≤ w)
              ∨ ((∀ w ∈ (ring replicas fn batches).keys,
                    w < (ring replicas fn batches).hashInt key)
                ∧ ∀ w ∈ (ring replicas fn batches).keys, v ≤ w))) := by
  obtain ⟨_, hs, _, hm⟩ := ring_spec replicas fn batches
  refine ⟨hs, ?_, ?_⟩
  · intro h
    simp [Map.Get, h]
  · intro hne
    obtain ⟨v0, hv0, hget, hge, hlt⟩ := Get_sorted _ key hs hne
    obtain ⟨n, hn, hmem⟩ := get_setAll [] _ v0 (mem_keys_ring replicas fn batches v0 hv0)
    rw [← hm] at hn
    refine ⟨v0, hv0, n, ((mem_virtualNodes _ _ _ _ _).mp hmem).1, hn, ?_, ?_⟩
    · rw [hget, hn]
      rfl
    · by_cases hex : ∃ w ∈ (ring replicas fn batches).keys,
          (ring replicas fn batches).hashInt key ≤ w
      · exact Or.inl (hge hex)
      · have hall : ∀ w ∈ (ring replicas fn batches).keys,
            w < (ring replicas fn batches).hashInt key := by
          intro w hw
          by_contra hc
          exact hex ⟨w, hw, not_lt.mp hc⟩
        exact Or.inr ⟨hall, hlt hall⟩

/-- C4 (as amended). Ring order independence: when no two virtual nodes of
different nodes have the same hash, two rings built by `New` with the same
replica count and hash function from the same nodes, added in any order and in
any grouping into `Add` calls, return the same node for every key. -/
theorem ring_order_independent (replicas : Int) (fn : Option Hash)
    (batches1 batches2 : List (List String)) (key : String)
    (hperm : batches1.flatten.Perm batches2.flatten)
    (hcol : ∀ n1 ∈ batches1.flatten, ∀ n2 ∈ batches1.flatten,
      ∀ i, i < replicas.toNat → ∀ j, j < replicas.toNat →
        virtualHash fn i n1 = virtualHash fn j n2 → n1 = n2) :
    (ring replicas fn batches1).Get key = (ring replicas fn batches2).Get key := by
  obtain ⟨a1, a2, a3, a4⟩ := ring_spec replicas fn batches1
  obtain ⟨b1, b2, b3, b4⟩ := ring_spec replicas fn batches2
  have hvn : ((New replicas fn).virtualNodes batches1.flatten).Perm
      ((New replicas fn).virtualNodes batches2.flatten) :=
    List.Perm.flatMap_right _ hperm
  have hkeys : (ring replicas fn batches1).keys = (ring replicas fn batches2).keys :=
    List.eq_of_perm_of_sorted (a3.trans ((hvn.map _).trans b3.symm)) a2 b2
  have hh : (ring replicas fn batches1).hashInt key = (ring replicas fn batches2).hashInt key :=
    hashInt_congr _ _ (a1.trans b1.symm) key
  by_cases hne : (ring replicas fn batches1).keys = []
  · have hne2 : (ring replicas fn batches2).keys = [] := by rw [← hkeys]; exact hne
    simp [Map.Get, hne, hne2]
  · obtain ⟨v1, hv1, g1, ge1, lt1⟩ := Get_sorted _ key a2 hne
    obtain ⟨v2, hv2, g2, ge2, lt2⟩ := Get_sorted _ key b2 (by rw [← hkeys]; exact hne)
    rw [← hkeys] at hv2 ge2 lt2
    rw [← hh] at ge2 lt2
    have hv : v1 = v2 := by
      by_cases hex : ∃ w ∈ (ring replicas fn batches1).keys,
          (ring replicas fn batches1).hashInt key ≤ w
      · obtain ⟨x1, y1⟩ := ge1 hex
        obtain ⟨x2, y2⟩ := ge2 hex
        exact le_antisymm (y1 v2 hv2 x2) (y2 v1 hv1 x1)
      · have hall : ∀ w ∈ (ring replicas fn batches1).keys,
            w < (ring replicas fn batches1).hashInt key := by
          intro w hw
          by_contra hc
          exact hex ⟨w, hw, not_lt.mp hc⟩
        exact le_antisymm (lt1 hall v2 hv2) (lt2 hall v1 hv1)
    obtain ⟨n0, hn0⟩ := mem_keys_ring replicas fn batches1 v1 hv1
    obtain ⟨n1, e1, m1⟩ := get_setAll [] _ v1 ⟨n0, hn0⟩
    obtain ⟨n2, e2, m2⟩ := get_setAll [] _ v1 ⟨n0, hvn.subset hn0⟩
    have m2b := hvn.symm.subset m2
    obtain ⟨c1, i, hi, hvi⟩ := (mem_virtualNodes _ _ _ _ _).mp m1
    obtain ⟨c2, j, hj, hvj⟩ := (mem_virtualNodes _ _ _ _ _).mp m2b
    have hn : n1 = n2 := hcol n1 c1 n2 c2 i hi j hj (hvi.trans hvj.symm)
    rw [g1, g2, ← hv, a4, b4, e1, e2, hn]

/-- C5 (as amended). Ring state: a ring built by `New` with `R ≥ 0` replicas
has `R * N` virtual-node hashes in its list after `N` nodes were added.  When
the nodes are distinct and no two of their virtual nodes have the same hash,
these hashes are pairwise distinct, the table holds exactly one entry for each
of them, `R * N` in all, and every node is the recorded value of exactly `R`
entries. -/
theorem ring_state (R : Nat) (fn : Option Hash) (batches : List (List String)) :
    (ring R fn batches).keys.length = R * batches.flatten.length
    ∧ (batches.flatten.Nodup →
        (∀ n1 ∈ batches.flatten, ∀ n2 ∈ batches.flatten, ∀ i, i < R → ∀ j, j < R →
          virtualHash fn i n1 = virtualHash fn j n2 → i = j ∧ n1 = n2) →
        (ring R fn batches).keys.Nodup
        ∧ (ring R fn batches).hashMap.length = R * batches.flatten.length
        ∧ ((ring R fn batches).hashMap.map Prod.fst).Perm (ring R fn batches).keys
        ∧ ∀ n ∈ batches.flatten,
            ((ring R fn batches).hashMap.filter (fun p => decide (p.2 = n))).length = R) := by
  obtain ⟨_, _, hp, hm⟩ := ring_spec R fn batches
  have hlen : ((New (R : Int) fn).virtualNodes batches.flatten).length
      = R * batches.flatten.length := by
    generalize batches.flatten = nodes
    induction nodes with
    | nil => simp [Map.virtualNodes]
    | cons n nodes ih =>
      have : (New (R : Int) fn).virtualNodes (n :: nodes)
          = (List.range R).map (fun i => ((New (R : Int) fn).hashInt (toString i ++ n), n))
            ++ (New (R : Int) fn).virtualNodes nodes := by
        simp [Map.virtualNodes, New]
      rw [this, List.length_append, ih]
      simp [Nat.mul_succ, Nat.add_comm]
  constructor
  · rw [hp.length_eq, List.length_map, hlen]
  · intro hnd hinj
    have hfst : (((New (R : Int) fn).virtualNodes batches.flatten).map Prod.fst).Nodup := by
      rw [List.Nodup, List.pairwise_map]
      have hvn : ((New (R : Int) fn).virtualNodes batches.flatten).Nodup := by
        simp only [Map.virtualNodes]
        rw [List.nodup_flatMap]
        constructor
        · intro n hn
          refine (List.nodup_range _).map_on ?_
          intro i hi j hj hij
          simp only [Prod.mk.injEq, and_true] at hij
          exact (hinj n hn n hn i (by simpa [New] using hi) j (by simpa [New] using hj)
            hij).1
        · refine hnd.imp ?_
          intro a b hab
          simp only [Function.onFun]
          intro p hpa hpb
          simp only [List.mem_map] at hpa hpb
          obtain ⟨_, _, rfl⟩ := hpa
          obtain ⟨_, _, hq⟩ := hpb
          simp only [Prod.mk.injEq] at hq
          exact hab hq.2.symm
      refine hvn.imp_of_mem ?_
      intro p q hp hq hpq heq
      obtain ⟨pv, pn⟩ := p
      obtain ⟨qv, qn⟩ := q
      simp only at heq
      subst heq
      obtain ⟨c1, i, hi, hvi⟩ := (mem_virtualNodes _ _ _ _ _).mp hp
      obtain ⟨c2, j, hj, hvj⟩ := (mem_virtualNodes _ _ _ _ _).mp hq
      have := hinj pn c1 qn c2 i (by simpa using hi) j (by simpa using hj) (hvi.trans hvj.symm)
      exact hpq (by rw [this.2])
    have hrev := setAll_nodup _ hfst
    rw [hrev] at hm
    refine ⟨(hp.nodup_iff).mpr hfst, ?_, ?_, ?_⟩
    · rw [hm, List.length_reverse, hlen]
    · rw [hm, List.map_reverse]
      exact (List.reverse_perm _).trans hp.symm
    · intro n hn
      rw [hm, List.filter_reverse, List.length_reverse]
      clear hm hrev hfst hinj hlen hp
      revert hnd hn
      generalize batches.flatten = nodes
      intro hnd hn
      induction nodes with
      | nil => simp at hn
      | cons a nodes ih =>
        have hsplit : (New (R : Int) fn).virtualNodes (a :: nodes)
            = (List.range R).map (fun i => ((New (R : Int) fn).hashInt (toString i ++ a), a))
              ++ (New (R : Int) fn).virtualNodes nodes := by
          simp [Map.virtualNodes, New]
        rw [hsplit, List.filter_append, List.length_append]
        rw [List.nodup_cons] at hnd
        by_cases han : a = n
        · subst han
          have hrest : ((New (R : Int) fn).virtualNodes nodes).filter
              (fun p => decide (p.2 = a)) = [] := by
            rw [List.filter_eq_nil_iff]
            intro p hp
            obtain ⟨pv, pn⟩ := p
            have := ((mem_virtualNodes _ _ _ _ _).mp hp).1
            simp only [decide_eq_true_eq]
            intro hpa
            have hpa2 : pn = a := hpa
            rw [hpa2] at this
            exact hnd.1 this
          rw [hrest, List.filter_eq_self.mpr (by simp)]
          simp
        · have hfirst : ((List.range R).map
              (fun i => ((New (R : Int) fn).hashInt (toString i ++ a), a))).filter
              (fun p => decide (p.2 = n)) = [] := by
            rw [List.filter_eq_nil_iff]
            intro p hp
            simp only [List.mem_map] at hp
            obtain ⟨_, _, rfl⟩ := hp
            simp [han]
          rw [hfirst]
          simp only [List.length_nil, Nat.zero_add]
          rcases List.mem_cons.mp hn with h1 | h1
          · exact absurd h1.symm han
          · exact ih hnd.2 h1

end consistenhash

set_option maxRecDepth 4000 in
/-- Witness for C3: on the ring of nodes "6", "4", "2" with three replicas and
the decimal hash, the key "23" is served by a node of the ring. -/
theorem consistenhash.ring_lookup_witness :
    ∃ v ∈ (consistenhash.ring 3 (some consistenhash.decimalHash) [["6", "4", "2"]]).keys,
      ∃ node ∈ [["6", "4", "2"]].flatten,
        GoMap.get (consistenhash.ring 3 (some consistenhash.decimalHash)
            [["6", "4", "2"]]).hashMap v = some node
        ∧ (consistenhash.ring 3 (some consistenhash.decimalHash) [["6", "4", "2"]]).Get "23"
            = node
        ∧ (((consistenhash.ring 3 (some consistenhash.decimalHash)
                [["6", "4", "2"]]).hashInt "23" ≤ v
              ∧ ∀ w ∈ (consistenhash.ring 3 (some consistenhash.decimalHash)
                    [["6", "4", "2"]]).keys,
                  (consistenhash.ring 3 (some consistenhash.decimalHash)
                    [["6", "4", "2"]]).hashInt "23" ≤ w → v ≤ w)
            ∨ ((∀ w ∈ (consistenhash.ring 3 (some consistenhash.decimalHash)
                    [["6", "4", "2"]]).keys,
                  w < (consistenhash.ring 3 (some consistenhash.decimalHash)
                    [["6", "4", "2"]]).hashInt "23")
              ∧ ∀ w ∈ (consistenhash.ring 3 (some consistenhash.decimalHash)
                    [["6", "4", "2"]]).keys, v ≤ w)) :=
  (consistenhash.ring_lookup 3 (some consistenhash.decimalHash) [["6", "4", "2"]] "23").2.2
    (by decide)

set_option maxRecDepth 4000 in
/-- Witness for C4: the nodes "6", "4", "2" added in two different orders and
groupings, with three replicas and the decimal hash. -/
theorem consistenhash.ring_order_independent_witness :
    (consistenhash.ring 3 (some consistenhash.decimalHash) [["6", "4", "2"]]).Get "23"
      = (consistenhash.ring 3 (some consistenhash.decimalHash) [["2"], ["6", "4"]]).Get "23" :=
  consistenhash.ring_order_independent 3 (some consistenhash.decimalHash)
    [["6", "4", "2"]] [["2"], ["6", "4"]] "23" (by decide) (by decide)

/-- Counterexample for C4 as stated: with one replica and a hash function that
maps everything to 0, adding "a" then "b" makes `Get` return "b", and adding
"b" then "a" makes it return "a". -/
theorem consistenhash.ring_order_independent_counterexample :
    (consistenhash.ring 1 (some (fun _ => 0)) [["a", "b"]]).Get "k" = "b"
    ∧ (consistenhash.ring 1 (some (fun _ => 0)) [["b", "a"]]).Get "k" = "a"
    ∧ (consistenhash.ring 1 (some (fun _ => 0)) [["a", "b"]]).Get "k"
        ≠ (consistenhash.ring 1 (some (fun _ => 0)) [["b", "a"]]).Get "k" := by
  decide

set_option maxRecDepth 4000 in
/-- Witness for C5: the nodes "6", "4", "2" with three replicas and the decimal
hash give nine distinct hashes, three for every node. -/
theorem consistenhash.ring_state_witness :
    (consistenhash.ring 3 (some consistenhash.decimalHash) [["6", "4"], ["2"]]).keys.Nodup
    ∧ (consistenhash.ring 3 (some consistenhash.decimalHash) [["6", "4"], ["2"]]).hashMap.length
        = 3 * [["6", "4"], ["2"]].flatten.length
    ∧ ((consistenhash.ring 3 (some consistenhash.decimalHash)
          [["6", "4"], ["2"]]).hashMap.map Prod.fst).Perm
        (consistenhash.ring 3 (some consistenhash.decimalHash) [["6", "4"], ["2"]]).keys
    ∧ ∀ n ∈ [["6", "4"], ["2"]].flatten,
        ((consistenhash.ring 3 (some consistenhash.decimalHash)
          [["6", "4"], ["2"]]).hashMap.filter (fun p => decide (p.2 = n))).length = 3 :=
  (consistenhash.ring_state 3 (some consistenhash.decimalHash) [["6", "4"], ["2"]]).2
    (by decide) (by decide)

/-- Counterexample for C5 as stated: with one replica and a hash function that
maps everything to 0, after `Add` of the two nodes "a" and "b" the two
virtual-node hashes are equal, the table holds one entry instead of two, and
no entry records "a". -/
theorem consistenhash.ring_state_counterexample :
    (consistenhash.ring 1 (some (fun _ => 0)) [["a", "b"]]).keys = [0, 0]
    ∧ (consistenhash.ring 1 (some (fun _ => 0)) [["a", "b"]]).hashMap = [(0, "b")]
    ∧ ¬ (consistenhash.ring 1 (some (fun _ => 0)) [["a", "b"]]).keys.Nodup
    ∧ (consistenhash.ring 1 (some (fun _ => 0)) [["a", "b"]]).hashMap.length ≠ 1 * 2
    ∧ ((consistenhash.ring 1 (some (fun _ => 0)) [["a", "b"]]).hashMap.filter
        (fun p => decide (p.2 = "a"))).length ≠ 1 := by
  decide

/-! ## Facts about the deduplicator and the group -/

/-- With an allocated ledger that has no record for the key, `Do` runs the
producer once, hands back its result and leaves no record for the key. -/
theorem singleflight.Do_allocated {β σ : Type} (m : GoMap String (singleflight.call β))
    (key : String) (fn : σ → Outcome (σ × Option β × Option Error)) (s s1 : σ)
    (val : Option β) (err : Option Error) (hm : GoMap.get m key = none)
    (hfn : fn s = .ret (s1, val, err)) :
    ∃ m1, singleflight.Group.Do { m := some m } key fn s = .ret (s1, { m := some m1 }, val, err)
      ∧ GoMap.get m1 key = none := by
  refine ⟨GoMap.delete (GoMap.set m key { wg := 0, val := val, err := err }) key, ?_, ?_⟩
  · simp [singleflight.Group.Do, hm, hfn]
  · simp [GoMap.get, GoMap.delete, List.find?_eq_none]

/-- C8 (code evaluated at the failing input). On the zero-value deduplicator,
whose ledger is the nil map, `Do` panics on the assignment `g.m[key] = c` for
every key and every producer, before the producer is called. -/
theorem singleflight.Do_zero_value_panics {β σ : Type} (key : String)
    (fn : σ → Outcome (σ × Option β × Option Error)) (s : σ) :
    singleflight.Group.Do ({ m := none } : singleflight.Group β) key fn s
      = .panic nilMapWrite := by
  simp [singleflight.Group.Do]

/-- C6 (code evaluated at the failing input). On a group just made by
`NewGroup`, `Get` of any non-empty key panics: the key is not cached, so `load`
calls `Do` on the zero-value deduplicator. -/
theorem cache.Get_miss_panics (reg reg1 : cache.Registry) (name : String) (cacheBytes : Int)
    (getter : cache.Getter) (g : cache.Group) (key : String)
    (hnew : cache.NewGroup reg name cacheBytes (some getter) = .ret (reg1, g))
    (hkey : key ≠ "") : g.Get key = .panic nilMapWrite := by
  have hg : g = { name := name, getter := some getter
                  mainCache := { lru := none, cacheBytes := cacheBytes }
                  peers := none, loader := some { m := none }, calls := [] } := by
    simp only [cache.NewGroup] at hnew
    split at hnew
    · split at hnew
      · cases hnew
        rfl
      · cases hnew
      · cases hnew
    · cases hnew
    · cases hnew
  subst hg
  simp [cache.Group.Get, hkey, cache.cache.get, cache.Group.load, singleflight.Group.Do]

/-- Witness for C6: the first group of a process, asked for key "a". -/
theorem cache.Get_miss_panics_witness :
    "a" ≠ "" ∧ cache.Group.Get
      { name := "g", getter := some cache.dataLoader
        mainCache := { lru := none, cacheBytes := 1024 }
        peers := none, loader := some { m := none }, calls := [] } "a"
      = .panic nilMapWrite :=
  ⟨by decide, cache.Get_miss_panics cache.Registry.init _ "g" 1024 cache.dataLoader _ "a"
    rfl (by decide)⟩

/-- C7 (code evaluated at the failing input). The group "images" with budget
1024 and the loader `key + "-data"` is created, and its first `Get("a")` panics
instead of returning "a-data". -/
theorem cache.read_through_panics :
    ∃ reg g, cache.NewGroup cache.Registry.init "images" 1024 (some cache.dataLoader)
        = .ret (reg, g)
      ∧ g.Get "a" = .panic nilMapWrite :=
  ⟨_, _, rfl, rfl⟩

/-- C9. Empty key rejection: on every group, in every state, `Get("")` returns
the zero `ByteView` with the error "key is required" and leaves the group as it
was: the store is untouched and no call to the loader, the peer picker or a
peer is made. -/
theorem cache.Get_empty_key (g : cache.Group) :
    g.Get "" = .ret (g, ⟨[]⟩, some "key is required") := by
  simp [cache.Group.Get]

/-- C10 (code evaluated at the failing input). On a new group without peers
whose loader fails with error `e`, `Get("k")` panics instead of returning `e`. -/
theorem cache.loader_failure_panics (e : Error) :
    ∃ reg g, cache.NewGroup cache.Registry.init "g" 0 (some (cache.failingLoader e))
        = .ret (reg, g)
      ∧ g.Get "k" = .panic nilMapWrite :=
  ⟨_, _, rfl, rfl⟩

/-! ## Further facts about the group and the registry -/

namespace cache

theorem NewGroup_ret (reg reg1 : Registry) (name : String) (cacheBytes : Int)
    (getter : Getter) (g : Group)
    (h : NewGroup reg name cacheBytes (some getter) = .ret (reg1, g)) :
    g = { name := name, getter := some getter
          mainCache := { lru := none, cacheBytes := cacheBytes }
          peers := none, loader := some { m := none }, calls := [] } := by
  simp only [NewGroup] at h
  split at h
  · split at h
    · cases h
      rfl
    · cases h
    · cases h
  · cases h
  · cases h

/-- A miss on a non-empty key panics when the deduplicator is the zero value. -/
theorem Get_zero_ledger_panics (g : Group) (key : String) (hkey : key ≠ "")
    (hl : g.loader = some { m := none }) (hmiss : (g.mainCache.get key).2.2 = false) :
    g.Get key = .panic nilMapWrite := by
  rcases hget : g.mainCache.get key with ⟨mc, v, b⟩
  rw [hget] at hmiss
  simp only at hmiss
  subst hmiss
  simp [Group.Get, hkey, hget, Group.load, hl, singleflight.Group.Do]

/-- A miss leaves the store as it was. -/
theorem cache_get_miss (c : cache) (key : String) (h : (c.get key).2.2 = false) :
    c.get key = (c, ⟨[]⟩, false) := by
  obtain ⟨l, cb⟩ := c
  cases l with
  | none => rfl
  | some l =>
    simp only [cache.get, lru.Cache.Get] at h ⊢
    cases hl : l.lookup key with
    | none => rfl
    | some ele => simp [hl] at h

/-- C11 (code evaluated at the failing input). On a group made by `NewGroup`
to which a peer picker is attached, `Get` of a non-empty key panics although
the picker names a peer whose fetch succeeds with bytes `b`. -/
theorem remote_fetch_panics (reg reg1 : Registry) (name : String) (cacheBytes : Int)
    (getter : Getter) (g g1 : Group) (pick : PeerPicker) (peer : PeerGetter) (b : Bytes)
    (key : String)
    (hnew : NewGroup reg name cacheBytes (some getter) = .ret (reg1, g))
    (hreg : g.RegiserPeers pick = .ret g1) (hkey : key ≠ "")
    (_hpick : pick key = (some peer, true)) (_hfetch : peer name key = (b, none)) :
    g1.Get key = .panic nilMapWrite := by
  have hg := NewGroup_ret reg reg1 name cacheBytes getter g hnew
  subst hg
  simp only [Group.RegiserPeers] at hreg
  cases hreg
  exact Get_zero_ledger_panics _ key hkey rfl rfl

/-- C12 (code evaluated at the failing input). On a group made by `NewGroup`
to which a peer picker is attached, `Get` of a non-empty key panics although
the fetch from the peer fails and the loader succeeds with bytes for the key. -/
theorem peer_failure_panics (reg reg1 : Registry) (name : String) (cacheBytes : Int)
    (getter : Getter) (g g1 : Group) (pick : PeerPicker) (peer : PeerGetter)
    (b bytes : Bytes) (e : Error) (key : String)
    (hnew : NewGroup reg name cacheBytes (some getter) = .ret (reg1, g))
    (hreg : g.RegiserPeers pick = .ret g1) (hkey : key ≠ "")
    (_hpick : pick key = (some peer, true)) (_hfetch : peer name key = (b, some e))
    (_hload : getter key = (bytes, none)) :
    g1.Get key = .panic nilMapWrite := by
  have hg := NewGroup_ret reg reg1 name cacheBytes getter g hnew
  subst hg
  simp only [Group.RegiserPeers] at hreg
  cases hreg
  exact Get_zero_ledger_panics _ key hkey rfl rfl

/-- C20 (code evaluated at the failing input). When no writer holds the lock,
`GetGroup(name)` returns the group registered under `name` but leaves two more
read holds on the registry lock than before, and every `NewGroup` that follows
blocks on `mu.Lock()`. -/
theorem GetGroup_leaks_read_holds (reg : Registry) (name : String)
    (h : reg.mu.writer = false) :
    GetGroup reg name
        = .ret ({ reg with mu := { readers := reg.mu.readers + 2, writer := false } },
            GoMap.get reg.groups name)
      ∧ ∀ (name2 : String) (cacheBytes : Int) (getter : Getter),
          NewGroup { reg with mu := { readers := reg.mu.readers + 2, writer := false } }
            name2 cacheBytes (some getter) = .hang := by
  constructor
  · simp [GetGroup, RWMutex.RLock, h]
  · intro name2 cacheBytes getter
    simp [NewGroup, RWMutex.Lock]

end cache

/-- Witness for C11: group "g" with a picker that always names a peer
answering with two bytes, asked for key "k". -/
theorem cache.remote_fetch_panics_witness :
    "k" ≠ "" ∧ cache.Group.Get
      { name := "g", getter := some cache.dataLoader
        mainCache := { lru := none, cacheBytes := 1024 }
        peers := some (cache.constPicker (cache.constPeer [1, 2]))
        loader := some { m := none }, calls := [] } "k"
      = .panic nilMapWrite :=
  ⟨by decide, cache.remote_fetch_panics cache.Registry.init _ "g" 1024 cache.dataLoader _ _
    (cache.constPicker (cache.constPeer [1, 2])) (cache.constPeer [1, 2]) [1, 2] "k"
    rfl rfl (by decide) rfl rfl⟩

/-- Witness for C12: group "g" with a picker that always names a failing peer
and the loader `key + "-data"`, asked for key "k". -/
theorem cache.peer_failure_panics_witness :
    "k" ≠ "" ∧ cache.Group.Get
      { name := "g", getter := some cache.dataLoader
        mainCache := { lru := none, cacheBytes := 1024 }
        peers := some (cache.constPicker (cache.failingPeer "down"))
        loader := some { m := none }, calls := [] } "k"
      = .panic nilMapWrite :=
  ⟨by decide, cache.peer_failure_panics cache.Registry.init _ "g" 1024 cache.dataLoader _ _
    (cache.constPicker (cache.failingPeer "down")) (cache.failingPeer "down") [] _ "down" "k"
    rfl rfl (by decide) rfl rfl rfl⟩

/-- Witness for C20: the registry of a fresh process. -/
theorem cache.GetGroup_leaks_read_holds_witness :
    cache.GetGroup cache.Registry.init "g"
        = .ret ({ cache.Registry.init with mu := { readers := 0 + 2, writer := false } }, none)
      ∧ ∀ (name2 : String) (cacheBytes : Int) (getter : cache.Getter),
          cache.NewGroup
            { cache.Registry.init with mu := { readers := 0 + 2, writer := false } }
            name2 cacheBytes (some getter) = .hang :=
  cache.GetGroup_leaks_read_holds cache.Registry.init "g" rfl

/-- C17 (code evaluated at the failing input). A single `Do` call, the case
`N = 1`, on the zero-value deduplicator with a producer that counts its
invocations panics before the producer is invoked. -/
theorem singleflight.single_call_panics {β : Type} (key : String) (v : β) :
    singleflight.Group.Do ({ m := none } : singleflight.Group β) key
        (singleflight.countingProducer v) 0
      = .panic nilMapWrite := by
  simp [singleflight.Group.Do]

/-! ## Facts about the HTTP pool -/

theorem GoMap.get_delete_ne {κ ν : Type} [DecidableEq κ] (hm : GoMap κ ν) (k v : κ)
    (h : k ≠ v) : GoMap.get (GoMap.delete hm k) v = GoMap.get hm v := by
  induction hm with
  | nil => rfl
  | cons p hm ih =>
    obtain ⟨a, b⟩ := p
    simp only [GoMap.get, GoMap.delete] at ih ⊢
    by_cases hp : a = k
    · subst hp
      simp only [List.filter_cons, decide_True, Bool.not_true, Bool.false_eq_true,
        if_false, List.find?_cons, h, decide_False]
      exact ih
    · by_cases hpv : a = v
      · subst hpv
        simp [List.filter_cons, hp]
      · simp only [List.filter_cons, hp, decide_False, Bool.not_false, if_true,
          List.find?_cons, hpv]
        exact ih

theorem GoMap.get_set_any {κ ν : Type} [DecidableEq κ] (hm : GoMap κ ν) (k v : κ) (n : ν) :
    GoMap.get (GoMap.set hm k n) v = if k = v then some n else GoMap.get hm v := by
  by_cases h : k = v
  · simp [GoMap.get, GoMap.set, h]
  · rw [if_neg h, ← GoMap.get_delete_ne hm k v h]
    simp [GoMap.get, GoMap.set, h]

namespace consistenhash

/-- On a ring built by `New` and `Add` calls, `Get` returns the empty string
or one of the nodes added. -/
theorem Get_empty_or_node (replicas : Int) (fn : Option Hash) (batches : List (List String))
    (key : String) :
    (ring replicas fn batches).Get key = ""
      ∨ (ring replicas fn batches).Get key ∈ batches.flatten := by
  obtain ⟨_, hs, _, hm⟩ := ring_spec replicas fn batches
  by_cases hne : (ring replicas fn batches).keys = []
  · left
    simp [Map.Get, hne]
  · right
    obtain ⟨v0, hv0, hget, _, _⟩ := Get_sorted _ key hs hne
    obtain ⟨n, hn, hmem⟩ := get_setAll [] _ v0 (mem_keys_ring replicas fn batches v0 hv0)
    rw [← hm] at hn
    rw [hget, hn]
    exact ((mem_virtualNodes _ _ _ _ _).mp hmem).1

end consistenhash

namespace cache

/-- After the loop of `Set` every peer has its handle in the table. -/
theorem getters_get (basePath : String) (peers : List String) (hm : GoMap String httpGetter)
    (peer : String)
    (h : peer ∈ peers ∨ GoMap.get hm peer = some { baseURL := peer ++ basePath }) :
    GoMap.get (peers.foldl (fun hm x => GoMap.set hm x { baseURL := x ++ basePath }) hm) peer
      = some { baseURL := peer ++ basePath } := by
  induction peers generalizing hm with
  | nil =>
    rcases h with h | h
    · simp at h
    · exact h
  | cons x rest ih =>
    simp only [List.foldl_cons]
    apply ih
    by_cases hx : x = peer
    · right
      rw [GoMap.get_set_any, if_pos hx, hx]
    · rcases h with h | h
      · rcases List.mem_cons.mp h with h1 | h1
        · exact absurd h1.symm hx
        · exact Or.inl h1
      · right
        rw [GoMap.get_set_any, if_neg hx]
        exact h

/-- Once `Set(peers...)` was called, `PickPeer(key)` reports not found when the
ring names no node (as it does when `peers` is empty) or names the address of
the pool itself, and otherwise returns the handle that `Set` registered for
the node that the ring names. -/
theorem PickPeer_after_Set (p : HTTPPool) (peers : List String) (key : String) :
    (p.Set peers).PickPeer key
        = (if (consistenhash.ring defaultReplicas none [peers]).Get key ≠ ""
              ∧ (consistenhash.ring defaultReplicas none [peers]).Get key ≠ p.self then
            .ret (some { baseURL :=
              (consistenhash.ring defaultReplicas none [peers]).Get key ++ p.basePath }, true)
          else .ret (none, false))
      ∧ (peers = [] → (consistenhash.ring defaultReplicas none [peers]).Get key = "") := by
  constructor
  · have hring : (consistenhash.New defaultReplicas none).Add peers
        = consistenhash.ring defaultReplicas none [peers] := rfl
    simp only [HTTPPool.PickPeer, HTTPPool.Set, hring]
    split
    · rename_i hc
      rcases consistenhash.Get_empty_or_node defaultReplicas none [peers] key with h0 | h1
      · exact absurd h0 hc.1
      · have hmem : (consistenhash.ring defaultReplicas none [peers]).Get key ∈ peers := by
          simpa using h1
        simp only [Option.bind]
        rw [getters_get p.basePath peers [] _ (Or.inl hmem)]
    · rfl
  · intro h
    subst h
    rfl

/-- C13 (code evaluated at the failing input). On a pool made by `NewHTTPPool`
on which `Set` was never called, `PickPeer` panics for every key: the ring
pointer is nil and `p.peers.Get(key)` dereferences it. -/
theorem PickPeer_unset_panics (self key : String) :
    (NewHTTPPool self).PickPeer key = .panic nilDeref := rfl

/-- C15 (code evaluated at the failing input). For the request path that is
the base path alone, `ServeHTTP` panics on the slice expression
`r.URL.Path[len(p.basePath)+1:]`; and a path that continues the base path
without a slash, here `/_whitecache-old/g/k`, is not answered with the
bad-request status: its second character onwards is split into group "old" and
key "g/k", and `GetGroup` is called. -/
theorem ServeHTTP_base_path_panics (self : String) (reg : Registry) :
    (NewHTTPPool self).ServeHTTP reg "/_whitecache" = .panic sliceOutOfRange
      ∧ (NewHTTPPool self).parts "/_whitecache-old/g/k" = .ret ["old", "g/k"]
      ∧ (NewHTTPPool self).ServeHTTP Registry.init "/_whitecache-old/g/k"
          = .ret ({ Registry.init with mu := { readers := 2, writer := false } },
              .error 404 ("不存在该命名空间:" ++ "old")) := by
  have h1 : (NewHTTPPool self).parts "/_whitecache" = .panic sliceOutOfRange := by
    simp only [HTTPPool.parts, NewHTTPPool]
    decide
  have h2 : (NewHTTPPool self).parts "/_whitecache-old/g/k" = .ret ["old", "g/k"] := by
    simp only [HTTPPool.parts, NewHTTPPool]
    decide
  refine ⟨?_, h2, ?_⟩
  · simp only [HTTPPool.ServeHTTP, h1]
  · simp only [HTTPPool.ServeHTTP, h2]
    rfl

/-- C16 (code evaluated at the failing input). The handle that `Set` registers
for peer `http://localhost:8002` has base URL `http://localhost:8002/_whitecache`;
its request for group "scores" and key "Tom" reaches the server with path
`/_whitecachescores/Tom`, from which `ServeHTTP` extracts ("cores", "Tom").
With a base URL that ends in a slash, group "g" and key "a b" reach the server
as `/_whitecache/g/a+b`, from which `ServeHTTP` extracts ("g", "a+b"). -/
theorem url_round_trip_fails :
    GoMap.get (((NewHTTPPool "http://localhost:8001").Set
        ["http://localhost:8002"]).httpGetters.getD []) "http://localhost:8002"
      = some { baseURL := "http://localhost:8002/_whitecache" }
    ∧ requestPath (httpGetter.requestURL { baseURL := "http://localhost:8002/_whitecache" }
        "scores" "Tom") = some "/_whitecachescores/Tom"
    ∧ (NewHTTPPool "http://localhost:8002").parts "/_whitecachescores/Tom"
        = .ret ["cores", "Tom"]
    ∧ requestPath (httpGetter.requestURL { baseURL := "http://localhost:8002/_whitecache/" }
        "g" "a b") = some "/_whitecache/g/a+b"
    ∧ (NewHTTPPool "http://localhost:8002").parts "/_whitecache/g/a+b"
        = .ret ["g", "a+b"] := by
  decide

end cache

/-! ## The load path with an allocated ledger

No code path allocates the ledger of the deduplicator.  The facts below show
what `Get` does on a miss once the ledger is allocated. -/

namespace cache

/-- With an allocated ledger, a miss served by a peer returns the bytes of the
peer, leaves the store as it was and does not call the loader. -/
theorem Get_remote_allocated (g : Group) (key : String)
    (m : GoMap String (singleflight.call ByteView)) (pick : PeerPicker) (peer : PeerGetter)
    (b : Bytes) (hkey : key ≠ "") (hmiss : (g.mainCache.get key).2.2 = false)
    (hl : g.loader = some { m := some m }) (hm : GoMap.get m key = none)
    (hp : g.peers = some pick) (hpick : pick key = (some peer, true))
    (hfetch : peer g.name key = (b, none)) :
    ∃ g1, g.Get key = .ret (g1, ⟨b⟩, none) ∧ g1.mainCache = g.mainCache
      ∧ g1.calls = g.calls ++ [.pickPeer key, .fetch g.name key] := by
  have hget := cache_get_miss g.mainCache key hmiss
  simp [Group.Get, hkey, hget, Group.load, hl, singleflight.Group.Do, hm, Group.loadFn, hp,
    hpick, Group.getFromPeer, hfetch]

/-- With an allocated ledger, when the peer fails and the loader fails too,
`Get` returns the error of the loader, with or without the peer picker, and
the store stays as it was. -/
theorem Get_fallback_error_allocated (g : Group) (key : String)
    (m : GoMap String (singleflight.call ByteView)) (pick : PeerPicker) (peer : PeerGetter)
    (getter : Getter) (b x : Bytes) (e e2 : Error) (hkey : key ≠ "")
    (hmiss : (g.mainCache.get key).2.2 = false)
    (hl : g.loader = some { m := some m }) (hm : GoMap.get m key = none)
    (hp : g.peers = some pick) (hpick : pick key = (some peer, true))
    (hfetch : peer g.name key = (b, some e))
    (hg : g.getter = some getter) (hload : getter key = (x, some e2)) :
    (∃ g1, g.Get key = .ret (g1, ⟨[]⟩, some e2) ∧ g1.mainCache = g.mainCache)
      ∧ ∃ g2, Group.Get { g with peers := none } key = .ret (g2, ⟨[]⟩, some e2)
          ∧ g2.mainCache = g.mainCache := by
  have hget := cache_get_miss g.mainCache key hmiss
  constructor
  · simp [Group.Get, hkey, hget, Group.load, hl, singleflight.Group.Do, hm, Group.loadFn, hp,
      hpick, Group.getFromPeer, hfetch, Group.getLocally, hg, hload]
  · simp [Group.Get, hkey, hget, Group.load, hl, singleflight.Group.Do, hm, Group.loadFn,
      Group.getLocally, hg, hload]

/-- With an allocated ledger, when the peer fails and the loader succeeds,
`Get` returns the bytes of the loader, with or without the peer picker, and the
store is the one that `add` produces. -/
theorem Get_fallback_value_allocated (g : Group) (key : String)
    (m : GoMap String (singleflight.call ByteView)) (pick : PeerPicker) (peer : PeerGetter)
    (getter : Getter) (b bytes : Bytes) (e : Error) (mc : cache) (hkey : key ≠ "")
    (hmiss : (g.mainCache.get key).2.2 = false)
    (hl : g.loader = some { m := some m }) (hm : GoMap.get m key = none)
    (hp : g.peers = some pick) (hpick : pick key = (some peer, true))
    (hfetch : peer g.name key = (b, some e))
    (hg : g.getter = some getter) (hload : getter key = (bytes, none))
    (hadd : g.mainCache.add key ⟨bytes⟩ = .ret mc) :
    (∃ g1, g.Get key = .ret (g1, ⟨bytes⟩, none) ∧ g1.mainCache = mc)
      ∧ ∃ g2, Group.Get { g with peers := none } key = .ret (g2, ⟨bytes⟩, none)
          ∧ g2.mainCache = mc := by
  have hget := cache_get_miss g.mainCache key hmiss
  constructor
  · simp [Group.Get, hkey, hget, Group.load, hl, singleflight.Group.Do, hm, Group.loadFn, hp,
      hpick, Group.getFromPeer, hfetch, Group.getLocally, hg, hload, Group.populateCache,
      cloneBytes, hadd]
  · simp [Group.Get, hkey, hget, Group.load, hl, singleflight.Group.Do, hm, Group.loadFn,
      Group.getLocally, hg, hload, Group.populateCache, cloneBytes, hadd]

end cache

namespace cache

theorem dropBytes_zero (cs : List Char) : dropBytes 0 cs = some cs := by
  cases cs <;> rfl

/-- A path made of the base path, a slash and a single segment is answered
with the bad-request status, and neither the registry nor a group is touched. -/
theorem ServeHTTP_single_segment (self : String) (reg : Registry) (segment : String)
    (h : ∀ c ∈ segment.data, c ≠ '/') :
    (NewHTTPPool self).ServeHTTP reg ("/_whitecache/" ++ segment)
      = .ret (reg, .error 400 "bad request") := by
  have hparts : (NewHTTPPool self).parts ("/_whitecache/" ++ segment) = .ret [segment] := by
    have hd : ("/_whitecache/" ++ segment).data
        = '/' :: '_' :: 'w' :: 'h' :: 'i' :: 't' :: 'e' :: 'c' :: 'a' :: 'c' :: 'h' :: 'e'
          :: '/' :: segment.data := by
      rw [String.data_append]
      rfl
    have hpre : HasPrefix ("/_whitecache/" ++ segment) "/_whitecache" = true := by
      simp only [HasPrefix, hd]
      rfl
    have hsize : '/'.utf8Size = 1 := by decide
    have hdrop : dropBytes 13 ("/_whitecache/" ++ segment).data = some segment.data := by
      rw [hd]
      simp [dropBytes, hsize, dropBytes_zero]
    have htake : segment.data.takeWhile (fun c => c != '/') = segment.data := by
      rw [List.takeWhile_eq_self_iff]
      intro c hc
      simpa using h c hc
    have hrest : segment.data.dropWhile (fun c => c != '/') = [] := by
      rw [List.dropWhile_eq_nil_iff]
      intro c hc
      simpa using h c hc
    simp only [HTTPPool.parts, NewHTTPPool, defaultBasePath, hpre, if_true, sliceFrom]
    have hlen : "/_whitecache".utf8ByteSize + 1 = 13 := by decide
    rw [hlen, hdrop]
    simp [SplitN2, List.span_eq_take_drop, htake, hrest]
  simp only [HTTPPool.ServeHTTP, hparts]

end cache
